import Mathlib

/-! Hangman (HANGMAN.cpp): session loop, completion check, word mask and statistics.

A shallow embedding of the game logic of `src/HANGMAN.cpp`.

* A C++ `char` is a Lean `Char`, a `string` and a `vector<char>` are `List Char`.
* The `int` counters of a session are `Nat`: they start at 0 and are only ever
  incremented. The statistics counters of `main` and the arguments of
  `display_statistical_summary` are `Int`. The development never looks at runs long
  enough to leave the range of `int`.
* `cin >> user_character_input` is a read from a finite list of characters, the input as
  far as it has been supplied: white space is skipped, the next character is handed to the
  loop body, and when the list is used up the session is left where it is, still in
  progress.
* The text written to `cout` is not part of the state; the word mask and the message
  chosen for a guess are kept as values.
-/

namespace Hangman

/-! ## Helper functions of the source -/

/-- The C library `toupper` in the "C" locale: `'a'..'z'` are moved to `'A'..'Z'`,
every other character is returned as it is. -/
def toupper (c : Char) : Char :=
  if 'a' ≤ c ∧ c ≤ 'z' then Char.ofNat (c.toNat - 32) else c

/-- `validate_character_input` (HANGMAN.cpp:289-292). -/
def validate_character_input (user_input : Char) : Bool :=
  (decide ('A' ≤ user_input) && decide (user_input ≤ 'Z')) ||
    (decide ('a' ≤ user_input) && decide (user_input ≤ 'z'))

/-- The characters the extraction `cin >> char` skips: the white space of the "C" locale,
which is the blank and the control characters 9 to 13 (tab, newline, vertical tab, form
feed, carriage return). -/
def is_white_space (c : Char) : Bool :=
  decide (c = ' ') || (decide (9 ≤ c.toNat) && decide (c.toNat ≤ 13))

/-- `string::find(char)`: the first position holding the character, `none` for `npos`. -/
def string_find (guessed_letter : Char) : List Char → Option Nat
  | [] => none
  | x :: rest =>
    if x = guessed_letter then some 0
    else (string_find guessed_letter rest).map (· + 1)

/-- `check_letter_in_word` (HANGMAN.cpp:295-298): `find(...) != npos`. -/
def check_letter_in_word (guessed_letter : Char) (target_word : List Char) : Bool :=
  (string_find guessed_letter target_word).isSome

/-- The inner loop shared by `evaluate_game_completion_status`, `display_word_progress`
and the duplicate check of `main`: scan a `vector<char>` for a character, setting a
flag and leaving the loop at the first hit. -/
def scan_for_character (word_character : Char) : List Char → Bool
  | [] => false
  | guessed_char :: rest =>
    if word_character = guessed_char then true
    else scan_for_character word_character rest

/-- `evaluate_game_completion_status` (HANGMAN.cpp:301-321): `false` at the first
character of the word that is not among the guessed letters, `true` after the loop. -/
def evaluate_game_completion_status : List Char → List Char → Bool
  | [], _ => true
  | word_character :: rest, correctly_guessed_letters =>
    if !scan_for_character word_character correctly_guessed_letters then false
    else evaluate_game_completion_status rest correctly_guessed_letters

/-- The mask that `display_word_progress` (HANGMAN.cpp:217-240) walks through: one entry
per character of the word, `some c` when `character_revealed` is set (the character is
printed), `none` when the placeholder is printed. -/
def word_progress_mask : List Char → List Char → List (Option Char)
  | [], _ => []
  | word_character :: rest, correctly_guessed_letters =>
    (if scan_for_character word_character correctly_guessed_letters
      then some word_character else none)
      :: word_progress_mask rest correctly_guessed_letters

/-- The characters one mask entry sends to `cout`: the character or `_`, then a blank. -/
def render_mask_entry : Option Char → List Char
  | some word_character => [word_character, ' ']
  | none => ['_', ' ']

/-- `display_word_progress` (HANGMAN.cpp:217-240): the text written to `cout`. -/
def display_word_progress (target_word correctly_guessed_letters : List Char) : List Char :=
  "\nWord Progress: ".toList
    ++ ((word_progress_mask target_word correctly_guessed_letters).map render_mask_entry).flatten
    ++ ['\n']

/-! ## The session loop of `main` -/

/-- `maximum_incorrect_attempts` (HANGMAN.cpp:40). -/
def maximum_incorrect_attempts : Nat := 6

/-- The session variables of `main` (HANGMAN.cpp:51-54). The two counters are kept as
the number of times they have been incremented. `incorrect_guess_counter` never passes
`maximum_incorrect_attempts`. `session_attempt_counter` goes up with every character
read; the `int` of the source holds this number as long as it is at most `int_max`, and
where its value enters the statistics (`game_session_loop`) it is taken through
`int_counter`. -/
structure Session where
  correctly_guessed_letters : List Char
  incorrectly_guessed_letters : List Char
  incorrect_guess_counter : Nat
  session_attempt_counter : Nat
  deriving DecidableEq, Repr

/-- The values the session variables are initialised with (HANGMAN.cpp:51-54). -/
def Session.initial : Session :=
  { correctly_guessed_letters := []
    incorrectly_guessed_letters := []
    incorrect_guess_counter := 0
    session_attempt_counter := 0 }

/-- Which of the four messages of the loop body answers a guess. -/
inductive GuessSignal where
  | InvalidInput
  | DuplicateGuess
  | CorrectGuess
  | IncorrectGuess
  deriving DecidableEq, Repr

/-- What one pass through the loop body leaves behind: the session variables, the
message, and whether the `break` of HANGMAN.cpp:127 was taken. -/
structure BodyResult where
  session : Session
  signal : GuessSignal
  completed : Bool
  deriving DecidableEq, Repr

/-- The duplicate check of HANGMAN.cpp:90-102: the flag `already_guessed` after both
scans. -/
def already_guessed (user_character_input : Char) (s : Session) : Bool :=
  let flag := false
  let flag := if scan_for_character user_character_input s.correctly_guessed_letters
    then true else flag
  let flag := if scan_for_character user_character_input s.incorrectly_guessed_letters
    then true else flag
  flag

/-- One pass through the body of the guessing loop (HANGMAN.cpp:77-128) on the character
read from the input. -/
def loop_body (target_word : List Char) (s : Session) (raw_input : Char) : BodyResult :=
  let user_character_input := toupper raw_input
  let s := { s with session_attempt_counter := s.session_attempt_counter + 1 }
  if !validate_character_input user_character_input then
    { session := s, signal := .InvalidInput, completed := false }
  else if already_guessed user_character_input s then
    { session := s, signal := .DuplicateGuess, completed := false }
  else
    let found := check_letter_in_word user_character_input target_word
    let s :=
      if found then
        { s with correctly_guessed_letters :=
            s.correctly_guessed_letters ++ [user_character_input] }
      else
        { s with
            incorrectly_guessed_letters :=
              s.incorrectly_guessed_letters ++ [user_character_input]
            incorrect_guess_counter := s.incorrect_guess_counter + 1 }
    { session := s
      signal := if found then .CorrectGuess else .IncorrectGuess
      completed := evaluate_game_completion_status target_word s.correctly_guessed_letters }

/-- How the guessing loop was left. -/
inductive LoopExit where
  -- the input ran out at `cin >>`: the loop has not been left, the session is in progress
  | InputExhausted
  -- the `break` after a successful completion check (HANGMAN.cpp:120-128)
  | WordCompleted
  -- the loop condition `incorrect_guess_counter < maximum_incorrect_attempts` failed
  | AttemptsExhausted
  deriving DecidableEq, Repr

/-- The session variables when the loop stops, and how it stopped. -/
structure LoopResult where
  session : Session
  exit : LoopExit
  deriving DecidableEq, Repr

/-- The guessing loop `while (incorrect_guess_counter < maximum_incorrect_attempts)`
(HANGMAN.cpp:62-129), fed from a list of input characters. The read
`cin >> user_character_input` (HANGMAN.cpp:77) skips white space: a white-space character
at the head of the input is dropped without reaching the loop body, and the read goes on
with the rest of the input. -/
def session_loop (target_word : List Char) : Session → List Char → LoopResult
  | s, input =>
    if s.incorrect_guess_counter < maximum_incorrect_attempts then
      match input with
      | [] => { session := s, exit := .InputExhausted }
      | raw_input :: rest =>
        if is_white_space raw_input then session_loop target_word s rest
        else
          let r := loop_body target_word s raw_input
          if r.completed then { session := r.session, exit := .WordCompleted }
          else session_loop target_word r.session rest
    else { session := s, exit := .AttemptsExhausted }

/-- One session of `main`: fresh session variables, then the guessing loop. -/
def run_session (target_word input : List Char) : LoopResult :=
  session_loop target_word Session.initial input

/-- Whether `successful_game_completions++` (HANGMAN.cpp:126) was executed. -/
def LoopResult.counted_as_success (r : LoopResult) : Bool :=
  decide (r.exit = .WordCompleted)

/-- Whether the failure branch after the loop (HANGMAN.cpp:132-139) is taken. It is only
reached once the loop has been left. -/
def LoopResult.failure_branch_taken (r : LoopResult) : Bool :=
  decide (r.exit ≠ .InputExhausted) &&
    decide (r.session.incorrect_guess_counter ≥ maximum_incorrect_attempts)

/-- The states of the session engine. -/
inductive SessionState where
  | InProgress
  | Won
  | Lost
  deriving DecidableEq, Repr

/-- The state a session is in when the loop stops: `Won` after the `break`, `Lost` when
the loop condition failed, `InProgress` while the loop waits for input. -/
def LoopResult.state (r : LoopResult) : SessionState :=
  match r.exit with
  | .InputExhausted => .InProgress
  | .WordCompleted => .Won
  | .AttemptsExhausted => .Lost

/-! ## Words used to state the properties -/

/-- The guesses as the loop body sees them: every input character after `toupper`, kept
when `validate_character_input` lets it through. -/
def normalised_guesses (input : List Char) : List Char :=
  (input.map toupper).filter validate_character_input

/-- The normalised guesses that do not occur in the target word. -/
def wrong_letters (target_word input : List Char) : List Char :=
  (normalised_guesses input).filter (fun c => !check_letter_in_word c target_word)

/-! ## The run of `main` and the statistical summary

The statistics counters of `main` are `int`s and are kept as `Int`. The `double`
arithmetic of `display_statistical_summary` is taken as exact arithmetic on `ℚ`.
Operations that C++ leaves undefined (a zero divisor, an index outside a vector, an `int`
result outside the range of `int`) return `none`. -/

/-- The largest value of an `int` (32 bits). -/
def int_max : Int := 2147483647

/-- The value of an `int` counter that started at 0 and has been incremented `count`
times: not defined once the count is past `int_max`. -/
def int_counter (count : Nat) : Option Int :=
  if (count : Int) ≤ int_max then some (count : Int) else none

/-- The C++ operator `+` on `int` (also `++` and `+=`): not defined when the sum is
outside the range of `int`. -/
def int_add (a b : Int) : Option Int :=
  if -int_max - 1 ≤ a + b ∧ a + b ≤ int_max then some (a + b) else none

/-- The word list `word_database` (HANGMAN.cpp:33-36). -/
def word_database : List (List Char) :=
  ["PROGRAMMING".toList, "ALGORITHM".toList, "FUNCTION".toList, "VARIABLE".toList,
   "COMPILER".toList, "DEBUGGING".toList, "ITERATION".toList, "PROCESSOR".toList]

/-- `maximum_game_sessions` (HANGMAN.cpp:39). -/
def maximum_game_sessions : Nat := 3

/-- The C++ operator `%` on `size_t`: not defined for a zero divisor. -/
def size_mod (a b : Nat) : Option Nat :=
  if b = 0 then none else some (a % b)

/-- The C++ operator `/` on `int`: not defined for a zero divisor, truncating otherwise. -/
def int_div (a b : Int) : Option Int :=
  if b = 0 then none else some (Int.tdiv a b)

/-- The C++ operator `/` on `double`, as exact arithmetic: not defined for a zero
divisor. -/
def double_div (a b : ℚ) : Option ℚ :=
  if b = 0 then none else some (a / b)

/-- The conversion `(int)` of a `double`: the fractional part is dropped. -/
def double_to_int (q : ℚ) : Int :=
  if 0 ≤ q then ⌊q⌋ else ⌈q⌉

/-- The target word of a session (HANGMAN.cpp:48):
`word_database[game_session_index % word_database.size()]`. -/
def select_target_word (database : List (List Char)) (game_session_index : Nat) :
    Option (List Char) :=
  (size_mod game_session_index database.length).bind (fun k => database[k]?)

/-- The part of the input the guessing loop has not read when it stops; the recursion is
the one of `session_loop`. -/
def session_loop_unread (target_word : List Char) : Session → List Char → List Char
  | s, input =>
    if s.incorrect_guess_counter < maximum_incorrect_attempts then
      match input with
      | [] => []
      | raw_input :: rest =>
        if is_white_space raw_input then session_loop_unread target_word s rest
        else
          let r := loop_body target_word s raw_input
          if r.completed then rest
          else session_loop_unread target_word r.session rest
    else input

/-- The statistics counters of `main` (HANGMAN.cpp:41-43). -/
structure RunStatistics where
  total_game_sessions : Int
  successful_game_completions : Int
  cumulative_attempt_count : Int
  deriving DecidableEq, Repr

/-- The values the statistics counters are initialised with (HANGMAN.cpp:41-43). -/
def RunStatistics.initial : RunStatistics :=
  { total_game_sessions := 0
    successful_game_completions := 0
    cumulative_attempt_count := 0 }

/-- What one finished session does to the statistics counters:
`successful_game_completions++` at the `break` (HANGMAN.cpp:126), then
`total_game_sessions++` and `cumulative_attempt_count += session_attempt_counter`
(HANGMAN.cpp:141-142). -/
def record_session (stats : RunStatistics) (success : Bool) (session_attempts : Int) :
    Option RunStatistics :=
  (if success then int_add stats.successful_game_completions 1
    else some stats.successful_game_completions).bind (fun successes =>
  (int_add stats.total_game_sessions 1).bind (fun total =>
  (int_add stats.cumulative_attempt_count session_attempts).map (fun cumulative =>
    { total_game_sessions := total
      successful_game_completions := successes
      cumulative_attempt_count := cumulative })))

/-- How the session loop of `main` ends. -/
inductive RunResult where
  -- every session reached a terminal state
  | Finished (stats : RunStatistics)
  -- a session is still waiting at `cin >>` when the input is used up
  | AwaitingInput
  -- the target word could not be selected (zero divisor or index outside the vector)
  | Fault
  -- an `int` counter left the range of `int`
  | Overflow
  deriving DecidableEq, Repr

/-- The loop `for (game_session_index = 0; game_session_index < maximum_game_sessions; ...)`
of `main` (HANGMAN.cpp:46-143). The first argument is the number of sessions still to be
played, `maximum_game_sessions - game_session_index`. All sessions read from the same
input, each one going on where the one before it stopped. -/
def game_session_loop (database : List (List Char)) :
    Nat → Nat → RunStatistics → List Char → RunResult
  | 0, _, stats, _ => .Finished stats
  | sessions_left + 1, game_session_index, stats, input =>
    match select_target_word database game_session_index with
    | none => .Fault
    | some target_word =>
      let r := session_loop target_word Session.initial input
      match int_counter r.session.session_attempt_counter with
      | none => .Overflow
      | some session_attempts =>
        if r.exit = .InputExhausted then .AwaitingInput
        else
          match record_session stats r.counted_as_success session_attempts with
          | none => .Overflow
          | some stats_after =>
            game_session_loop database sessions_left (game_session_index + 1)
              stats_after (session_loop_unread target_word Session.initial input)

/-- The sessions of `main` for a given word list and session count. -/
def main_run (database : List (List Char)) (session_count : Nat) (input : List Char) :
    RunResult :=
  game_session_loop database session_count 0 RunStatistics.initial input

/-- The computation of `average_attempts` (HANGMAN.cpp:146). -/
def average_attempts (stats : RunStatistics) : Option Int :=
  if stats.total_game_sessions > 0 then
    int_div stats.cumulative_attempt_count stats.total_game_sessions
  else some 0

/-- The four performance classes of `display_statistical_summary`. -/
inductive Classification where
  | Excellent
  | Good
  | Average
  | NeedsImprovement
  deriving DecidableEq, Repr

/-- The performance classification (HANGMAN.cpp:259-267). -/
def classify_performance (success_rate : ℚ) : Classification :=
  if success_rate ≥ 80 then .Excellent
  else if success_rate ≥ 60 then .Good
  else if success_rate ≥ 40 then .Average
  else .NeedsImprovement

/-- The values `display_statistical_summary` prints. -/
structure StatisticalSummary where
  total_games : Int
  successful_completions : Int
  success_rate : ℚ
  average_attempts : Int
  classification : Classification
  filled_segments : Int
  progress_bar : List Bool
  deriving DecidableEq, Repr

/-- The computation of `success_rate` (HANGMAN.cpp:249). -/
def compute_success_rate (total_games successful_completions : Int) : Option ℚ :=
  if total_games > 0 then
    (double_div (successful_completions : ℚ) (total_games : ℚ)).map (fun q => q * 100)
  else some 0

/-- `display_statistical_summary` (HANGMAN.cpp:243-286). The progress bar has one entry
per segment, `true` for a filled one. -/
def display_statistical_summary (total_games successful_completions average_attempts : Int) :
    Option StatisticalSummary :=
  (compute_success_rate total_games successful_completions).map (fun success_rate =>
    let progress_bar_length : Nat := 20
    let filled_segments := double_to_int (success_rate / 100 * progress_bar_length)
    { total_games := total_games
      successful_completions := successful_completions
      success_rate := success_rate
      average_attempts := average_attempts
      classification := classify_performance success_rate
      filled_segments := filled_segments
      progress_bar :=
        (List.range progress_bar_length).map
          (fun (i : Nat) => decide ((i : Int) < filled_segments)) })

/-- The whole of `main` (HANGMAN.cpp:28-150) for a given word list and session count: the
sessions, then the average and the summary. `none` when the sessions do not all finish
or an operation is undefined. -/
def main_program (database : List (List Char)) (session_count : Nat) (input : List Char) :
    Option StatisticalSummary :=
  match main_run database session_count input with
  | .Finished stats =>
    (average_attempts stats).bind (fun average =>
      display_statistical_summary stats.total_game_sessions
        stats.successful_game_completions average)
  | _ => none

theorem scan_for_character_iff (c : Char) (l : List Char) :
    scan_for_character c l = true ↔ c ∈ l := by
  induction l with
  | nil => simp [scan_for_character]
  | cons x xs ih =>
    by_cases h : c = x
    · simp [scan_for_character, h]
    · simp [scan_for_character, h, ih]

theorem scan_for_character_eq_decide (c : Char) (l : List Char) :
    scan_for_character c l = decide (c ∈ l) := by
  by_cases h : c ∈ l
  · simp [h, (scan_for_character_iff c l).2 h]
  · have : scan_for_character c l ≠ true := fun e => h ((scan_for_character_iff c l).1 e)
    simp [h, this]

theorem string_find_isSome_iff (c : Char) (w : List Char) :
    (string_find c w).isSome = true ↔ c ∈ w := by
  induction w with
  | nil => simp [string_find]
  | cons x xs ih =>
    by_cases h : x = c
    · simp [string_find, h]
    · have h2 : ¬ c = x := fun e => h e.symm
      simp [string_find, h, h2, ih]

theorem check_letter_in_word_iff (c : Char) (w : List Char) :
    check_letter_in_word c w = true ↔ c ∈ w := by
  unfold check_letter_in_word
  exact string_find_isSome_iff c w

theorem check_letter_in_word_eq_false_iff (c : Char) (w : List Char) :
    check_letter_in_word c w = false ↔ c ∉ w := by
  rw [← check_letter_in_word_iff c w]
  simp

theorem evaluate_game_completion_status_iff (w g : List Char) :
    evaluate_game_completion_status w g = true ↔ ∀ c ∈ w, c ∈ g := by
  induction w with
  | nil => simp [evaluate_game_completion_status]
  | cons x xs ih =>
    by_cases h : x ∈ g
    · simp [evaluate_game_completion_status, scan_for_character_eq_decide, h, ih]
    · simp [evaluate_game_completion_status, scan_for_character_eq_decide, h]

theorem evaluate_game_completion_status_eq_false_iff (w g : List Char) :
    evaluate_game_completion_status w g = false ↔ ¬ ∀ c ∈ w, c ∈ g := by
  rw [← evaluate_game_completion_status_iff w g]
  simp

theorem word_progress_mask_eq_map (w g : List Char) :
    word_progress_mask w g = w.map (fun c => if c ∈ g then some c else none) := by
  induction w with
  | nil => simp [word_progress_mask]
  | cons x xs ih => simp [word_progress_mask, scan_for_character_eq_decide, ih]

theorem already_guessed_iff (c : Char) (s : Session) :
    already_guessed c s = true ↔
      c ∈ s.correctly_guessed_letters ∨ c ∈ s.incorrectly_guessed_letters := by
  by_cases h1 : c ∈ s.correctly_guessed_letters <;>
    by_cases h2 : c ∈ s.incorrectly_guessed_letters <;>
    simp [already_guessed, scan_for_character_eq_decide, h1, h2]

theorem char_le_iff (a b : Char) : a ≤ b ↔ a.toNat ≤ b.toNat := Iff.rfl

theorem toupper_of_not_lower (c : Char) (h : ¬ ('a' ≤ c ∧ c ≤ 'z')) : toupper c = c := by
  unfold toupper
  simp [h]

theorem toupper_of_upper (c : Char) (h : 'A' ≤ c ∧ c ≤ 'Z') : toupper c = c := by
  apply toupper_of_not_lower
  intro ⟨ha, _⟩
  have hz := h.2
  rw [char_le_iff] at ha hz
  have e1 : ('a' : Char).toNat = 97 := by decide
  have e2 : ('Z' : Char).toNat = 90 := by decide
  omega

theorem validate_character_input_iff (c : Char) :
    validate_character_input c = true ↔ ('A' ≤ c ∧ c ≤ 'Z') ∨ ('a' ≤ c ∧ c ≤ 'z') := by
  simp [validate_character_input]

/-- The four ways through the loop body, told apart by the normalised character. -/
theorem loop_body_cases (w : List Char) (s : Session) (a : Char) :
    (validate_character_input (toupper a) = false ∧
      loop_body w s a =
        { session := { s with session_attempt_counter := s.session_attempt_counter + 1 }
          signal := .InvalidInput, completed := false }) ∨
    (validate_character_input (toupper a) = true ∧
      (toupper a ∈ s.correctly_guessed_letters ∨ toupper a ∈ s.incorrectly_guessed_letters) ∧
      loop_body w s a =
        { session := { s with session_attempt_counter := s.session_attempt_counter + 1 }
          signal := .DuplicateGuess, completed := false }) ∨
    (validate_character_input (toupper a) = true ∧
      toupper a ∉ s.correctly_guessed_letters ∧ toupper a ∉ s.incorrectly_guessed_letters ∧
      toupper a ∈ w ∧
      loop_body w s a =
        { session :=
            { s with
              correctly_guessed_letters := s.correctly_guessed_letters ++ [toupper a]
              session_attempt_counter := s.session_attempt_counter + 1 }
          signal := .CorrectGuess
          completed :=
            evaluate_game_completion_status w (s.correctly_guessed_letters ++ [toupper a]) }) ∨
    (validate_character_input (toupper a) = true ∧
      toupper a ∉ s.correctly_guessed_letters ∧ toupper a ∉ s.incorrectly_guessed_letters ∧
      toupper a ∉ w ∧
      loop_body w s a =
        { session :=
            { s with
              incorrectly_guessed_letters := s.incorrectly_guessed_letters ++ [toupper a]
              incorrect_guess_counter := s.incorrect_guess_counter + 1
              session_attempt_counter := s.session_attempt_counter + 1 }
          signal := .IncorrectGuess
          completed := evaluate_game_completion_status w s.correctly_guessed_letters }) := by
  by_cases hv : validate_character_input (toupper a) = true
  · right
    by_cases hd : already_guessed (toupper a)
        { s with session_attempt_counter := s.session_attempt_counter + 1 } = true
    · left
      refine ⟨hv, ?_, ?_⟩
      · simpa using (already_guessed_iff _ _).1 hd
      · simp [loop_body, hv, hd]
    · right
      have hn := mt (already_guessed_iff (toupper a)
        { s with session_attempt_counter := s.session_attempt_counter + 1 }).2 hd
      simp only [not_or] at hn
      by_cases hw : toupper a ∈ w
      · left
        have hc := (check_letter_in_word_iff (toupper a) w).2 hw
        exact ⟨hv, hn.1, hn.2, hw, by simp [loop_body, hv, hd, hc]⟩
      · right
        have hc := (check_letter_in_word_eq_false_iff (toupper a) w).2 hw
        exact ⟨hv, hn.1, hn.2, hw, by simp [loop_body, hv, hd, hc]⟩
  · left
    have hv2 : validate_character_input (toupper a) = false := by simpa using hv
    exact ⟨hv2, by simp [loop_body, hv2]⟩

theorem toNat_ofNat_of_lt (n : Nat) (h : n < 55296) : (Char.ofNat n).toNat = n := by
  unfold Char.ofNat
  have hv : n.isValidChar := Or.inl h
  rw [dif_pos hv]
  rfl

theorem toupper_of_lower (c : Char) (h : 'a' ≤ c ∧ c ≤ 'z') :
    'A' ≤ toupper c ∧ toupper c ≤ 'Z' ∧ (toupper c).toNat + 32 = c.toNat := by
  have e1 : ('a' : Char).toNat = 97 := by decide
  have e2 : ('z' : Char).toNat = 122 := by decide
  have e3 : ('A' : Char).toNat = 65 := by decide
  have e4 : ('Z' : Char).toNat = 90 := by decide
  have ha := h.1
  have hz := h.2
  rw [char_le_iff] at ha hz
  have hu : toupper c = Char.ofNat (c.toNat - 32) := by
    unfold toupper
    simp [h]
  have hn : (toupper c).toNat = c.toNat - 32 := by
    rw [hu]
    exact toNat_ofNat_of_lt _ (by omega)
  refine ⟨?_, ?_, ?_⟩
  · rw [char_le_iff]; omega
  · rw [char_le_iff]; omega
  · omega

/-- A letter stays a letter under `toupper`. -/
theorem validate_toupper (c : Char) (h : validate_character_input c = true) :
    validate_character_input (toupper c) = true := by
  by_cases hl : 'a' ≤ c ∧ c ≤ 'z'
  · have := toupper_of_lower c hl
    exact (validate_character_input_iff _).2 (Or.inl ⟨this.1, this.2.1⟩)
  · rw [toupper_of_not_lower c hl]
    exact h

/-- A character that is no letter is no letter after `toupper` either. -/
theorem validate_toupper_of_not_letter (c : Char) (h : validate_character_input c = false) :
    validate_character_input (toupper c) = false := by
  have hl : ¬ ('a' ≤ c ∧ c ≤ 'z') := by
    intro hl
    have := (validate_character_input_iff c).2 (Or.inr hl)
    rw [h] at this
    exact Bool.noConfusion this
  rw [toupper_of_not_lower c hl]
  exact h

/-! ## The loop body, one guess at a time -/

theorem session_loop_cons (w : List Char) (s : Session) (a : Char) (rest : List Char)
    (h : s.incorrect_guess_counter < maximum_incorrect_attempts)
    (hws : is_white_space a = false) :
    session_loop w s (a :: rest) =
      if (loop_body w s a).completed then
        { session := (loop_body w s a).session, exit := .WordCompleted }
      else session_loop w (loop_body w s a).session rest := by
  rw [session_loop]
  simp [h, hws]

theorem session_loop_nil (w : List Char) (s : Session)
    (h : s.incorrect_guess_counter < maximum_incorrect_attempts) :
    session_loop w s [] = { session := s, exit := .InputExhausted } := by
  rw [session_loop]
  simp [h]

theorem session_loop_of_exhausted (w : List Char) (s : Session) (input : List Char)
    (h : ¬ s.incorrect_guess_counter < maximum_incorrect_attempts) :
    session_loop w s input = { session := s, exit := .AttemptsExhausted } := by
  cases input <;> rw [session_loop] <;> simp [h]

/-- White space at the head of the input is skipped. -/
theorem session_loop_cons_space (w : List Char) (s : Session) (a : Char) (rest : List Char)
    (hws : is_white_space a = true) :
    session_loop w s (a :: rest) = session_loop w s rest := by
  by_cases h : s.incorrect_guess_counter < maximum_incorrect_attempts
  · rw [session_loop]
    simp [h, hws]
  · rw [session_loop_of_exhausted w s _ h, session_loop_of_exhausted w s _ h]

/-- White space is no letter, before and after `toupper`. -/
theorem white_space_not_letter (a : Char) (hws : is_white_space a = true) :
    validate_character_input (toupper a) = false ∧ validate_character_input a = false := by
  have hn : a.toNat ≤ 32 := by
    unfold is_white_space at hws
    simp only [Bool.or_eq_true, Bool.and_eq_true, decide_eq_true_eq] at hws
    rcases hws with h | h
    · rw [h]; decide
    · omega
  have e1 : ('a' : Char).toNat = 97 := by decide
  have e2 : ('A' : Char).toNat = 65 := by decide
  have hl : ¬ ('a' ≤ a ∧ a ≤ 'z') := by
    intro h
    have h1 := h.1
    rw [char_le_iff] at h1
    omega
  have hv : validate_character_input a = false := by
    cases hval : validate_character_input a with
    | false => rfl
    | true =>
      exfalso
      rcases (validate_character_input_iff a).1 hval with h | h
      · have h1 := h.1
        rw [char_le_iff] at h1
        omega
      · exact hl h
  rw [toupper_of_not_lower a hl]
  exact ⟨hv, hv⟩


/-- C1: an uppercase letter that is in neither list is accepted. If it occurs in the word
(which is what `check_letter_in_word` tests) it is appended to the correct list and the
incorrect list and counter stay; otherwise it is appended to the incorrect list, the
incorrect counter goes up by one and the correct list stays. Either way the attempt
counter goes up by one. -/
theorem accepted_guess_step (w : List Char) (s : Session) (c : Char)
    (hupper : 'A' ≤ c ∧ c ≤ 'Z')
    (hcorrect : c ∉ s.correctly_guessed_letters)
    (hincorrect : c ∉ s.incorrectly_guessed_letters) :
    (check_letter_in_word c w = true ↔ c ∈ w) ∧
    (c ∈ w →
      (loop_body w s c).signal = .CorrectGuess ∧
      (loop_body w s c).session.correctly_guessed_letters = s.correctly_guessed_letters ++ [c] ∧
      (loop_body w s c).session.incorrectly_guessed_letters = s.incorrectly_guessed_letters ∧
      (loop_body w s c).session.incorrect_guess_counter = s.incorrect_guess_counter) ∧
    (c ∉ w →
      (loop_body w s c).signal = .IncorrectGuess ∧
      (loop_body w s c).session.incorrectly_guessed_letters = s.incorrectly_guessed_letters ++ [c] ∧
      (loop_body w s c).session.incorrect_guess_counter = s.incorrect_guess_counter + 1 ∧
      (loop_body w s c).session.correctly_guessed_letters = s.correctly_guessed_letters) ∧
    (loop_body w s c).session.session_attempt_counter = s.session_attempt_counter + 1 := by
  have hu := toupper_of_upper c hupper
  have hv : validate_character_input c = true :=
    (validate_character_input_iff c).2 (Or.inl hupper)
  refine ⟨check_letter_in_word_iff c w, ?_, ?_, ?_⟩
  · intro hw
    rcases loop_body_cases w s c with h | h | h | h <;> rw [hu] at h
    · rw [hv] at h; exact Bool.noConfusion h.1
    · rcases h.2.1 with h1 | h1
      · exact absurd h1 hcorrect
      · exact absurd h1 hincorrect
    · rw [h.2.2.2.2]; simp
    · exact absurd hw h.2.2.2.1
  · intro hw
    rcases loop_body_cases w s c with h | h | h | h <;> rw [hu] at h
    · rw [hv] at h; exact Bool.noConfusion h.1
    · rcases h.2.1 with h1 | h1
      · exact absurd h1 hcorrect
      · exact absurd h1 hincorrect
    · exact absurd h.2.2.2.1 hw
    · rw [h.2.2.2.2]; simp
  · rcases loop_body_cases w s c with h | h | h | h
    · rw [h.2]
    · rw [h.2.2]
    · rw [h.2.2.2.2]
    · rw [h.2.2.2.2]

/-- The step of C1 on the word CAT: `C` is accepted as correct, `X` as incorrect. -/
theorem accepted_guess_step_witness :
    ('A' ≤ 'C' ∧ 'C' ≤ 'Z') ∧
    (loop_body "CAT".toList Session.initial 'C').session.correctly_guessed_letters = ['C'] ∧
    (loop_body "CAT".toList Session.initial 'C').session.session_attempt_counter = 1 :=
  ⟨by decide,
   by
    have h := accepted_guess_step "CAT".toList Session.initial 'C' (by decide) (by decide)
      (by decide)
    exact (h.2.1 (by decide)).2.1,
   by decide⟩

/-- C4, as stated, fails: on the word CAT the guess `5`, which is no white space and so
is read by `cin >>`, is answered with the invalid-input message, yet the attempt counter,
0 before, is 1 afterwards. -/
theorem invalid_input_counts_as_attempt :
    ¬ (('A' ≤ '5' ∧ '5' ≤ 'Z') ∨ ('a' ≤ '5' ∧ '5' ≤ 'z')) ∧
    is_white_space '5' = false ∧
    (loop_body "CAT".toList Session.initial '5').signal = .InvalidInput ∧
    Session.initial.session_attempt_counter = 0 ∧
    (run_session "CAT".toList ['5']).session.session_attempt_counter = 1 ∧
    (run_session "CAT".toList ['5']).state = .InProgress := by
  decide

/-- C4, amended: in a session that is in progress, an input character that is not
alphabetic is treated in one of two ways. When it is no white space, it is read and
answered with the invalid-input message; the correct list, the incorrect list and the
incorrect counter are unchanged and the session stays in progress (the loop goes on with
the next input), while the attempt counter goes up by one. When it is white space,
`cin >>` skips it: it never reaches the loop body, no message is given, nothing is
counted, and the read goes on with the next input. -/
theorem invalid_input_step (w : List Char) (s : Session) (c : Char) (rest : List Char)
    (hprogress : s.incorrect_guess_counter < maximum_incorrect_attempts)
    (hnot : ¬ (('A' ≤ c ∧ c ≤ 'Z') ∨ ('a' ≤ c ∧ c ≤ 'z'))) :
    (is_white_space c = false →
      (loop_body w s c).signal = .InvalidInput ∧
      (loop_body w s c).completed = false ∧
      (loop_body w s c).session.correctly_guessed_letters = s.correctly_guessed_letters ∧
      (loop_body w s c).session.incorrectly_guessed_letters = s.incorrectly_guessed_letters ∧
      (loop_body w s c).session.incorrect_guess_counter = s.incorrect_guess_counter ∧
      (loop_body w s c).session.session_attempt_counter = s.session_attempt_counter + 1 ∧
      session_loop w s [c] =
        { session := { s with session_attempt_counter := s.session_attempt_counter + 1 }
          exit := .InputExhausted } ∧
      (session_loop w s [c]).state = .InProgress ∧
      session_loop w s (c :: rest) =
        session_loop w { s with session_attempt_counter := s.session_attempt_counter + 1 }
          rest) ∧
    (is_white_space c = true →
      session_loop w s [c] = { session := s, exit := .InputExhausted } ∧
      (session_loop w s [c]).state = .InProgress ∧
      session_loop w s (c :: rest) = session_loop w s rest) := by
  constructor
  · intro hws
    have hv : validate_character_input c = false := by
      have := mt (validate_character_input_iff c).1 hnot
      simpa using this
    have hv2 := validate_toupper_of_not_letter c hv
    have hb : loop_body w s c =
        { session := { s with session_attempt_counter := s.session_attempt_counter + 1 }
          signal := .InvalidInput, completed := false } := by
      rcases loop_body_cases w s c with h | h | h | h
      · exact h.2
      · rw [hv2] at h; exact Bool.noConfusion h.1
      · rw [hv2] at h; exact Bool.noConfusion h.1
      · rw [hv2] at h; exact Bool.noConfusion h.1
    have hp : ({ s with session_attempt_counter := s.session_attempt_counter + 1 } :
        Session).incorrect_guess_counter < maximum_incorrect_attempts := hprogress
    have hone : session_loop w s [c] =
        { session := { s with session_attempt_counter := s.session_attempt_counter + 1 }
          exit := .InputExhausted } := by
      rw [session_loop_cons w s c [] hprogress hws, hb]
      simp only [Bool.false_eq_true, if_false]
      rw [session_loop_nil w _ hp]
    refine ⟨by rw [hb], by rw [hb], by rw [hb], by rw [hb], by rw [hb], by rw [hb], hone,
      ?_, ?_⟩
    · rw [hone]; rfl
    · rw [session_loop_cons w s c rest hprogress hws, hb]
      simp
  · intro hws
    have hone : session_loop w s [c] = { session := s, exit := .InputExhausted } := by
      rw [session_loop_cons_space w s c [] hws, session_loop_nil w s hprogress]
    refine ⟨hone, ?_, session_loop_cons_space w s c rest hws⟩
    rw [hone]; rfl

/-- The step of C4 on the word CAT: the guess `5` is rejected and counted, a blank is
skipped and not counted. -/
theorem invalid_input_step_witness :
    ((loop_body "CAT".toList Session.initial '5').signal = .InvalidInput ∧
      (loop_body "CAT".toList Session.initial '5').session.correctly_guessed_letters = [] ∧
      (loop_body "CAT".toList Session.initial '5').session.session_attempt_counter = 0 + 1) ∧
    session_loop "CAT".toList Session.initial [' ']
      = { session := Session.initial, exit := .InputExhausted } ∧
    (run_session "CAT".toList "C A T\n".toList).session.session_attempt_counter = 3 :=
  ⟨(fun h => ⟨h.1, h.2.2.1, h.2.2.2.2.2.1⟩)
      ((invalid_input_step "CAT".toList Session.initial '5' [] (by decide)
        (by decide)).1 (by decide)),
   ((invalid_input_step "CAT".toList Session.initial ' ' [] (by decide)
      (by decide)).2 (by decide)).1,
   by decide⟩

/-- C5, as stated, fails: on the word CAT with the guesses `C`, `C` the second `C` is
answered with the duplicate message, yet the attempt counter, 1 after the first `C`, is 2
after the second. -/
theorem duplicate_guess_counts_as_attempt :
    (run_session "CAT".toList ['C']).session.session_attempt_counter = 1 ∧
    (loop_body "CAT".toList (run_session "CAT".toList ['C']).session 'C').signal
      = .DuplicateGuess ∧
    (run_session "CAT".toList ['C', 'C']).session.session_attempt_counter = 2 := by
  decide

/-- C5, amended: in a session that is in progress, a letter whose uppercase form is
already in the correct list or in the incorrect list is answered with the duplicate
message; the correct list, the incorrect list and the incorrect counter are unchanged and
the loop goes on with the next input, while the attempt counter goes up by one. -/
theorem duplicate_guess_step (w : List Char) (s : Session) (c : Char) (rest : List Char)
    (hprogress : s.incorrect_guess_counter < maximum_incorrect_attempts)
    (hletter : ('A' ≤ c ∧ c ≤ 'Z') ∨ ('a' ≤ c ∧ c ≤ 'z'))
    (hdup : toupper c ∈ s.correctly_guessed_letters ∨
      toupper c ∈ s.incorrectly_guessed_letters) :
    (loop_body w s c).signal = .DuplicateGuess ∧
    (loop_body w s c).completed = false ∧
    (loop_body w s c).session.correctly_guessed_letters = s.correctly_guessed_letters ∧
    (loop_body w s c).session.incorrectly_guessed_letters = s.incorrectly_guessed_letters ∧
    (loop_body w s c).session.incorrect_guess_counter = s.incorrect_guess_counter ∧
    (loop_body w s c).session.session_attempt_counter = s.session_attempt_counter + 1 ∧
    session_loop w s (c :: rest) =
      session_loop w { s with session_attempt_counter := s.session_attempt_counter + 1 } rest := by
  have hv := validate_toupper c ((validate_character_input_iff c).2 hletter)
  have hb : loop_body w s c =
      { session := { s with session_attempt_counter := s.session_attempt_counter + 1 }
        signal := .DuplicateGuess, completed := false } := by
    rcases loop_body_cases w s c with h | h | h | h
    · rw [hv] at h; exact Bool.noConfusion h.1
    · exact h.2.2
    · rcases hdup with h1 | h1
      · exact absurd h1 h.2.1
      · exact absurd h1 h.2.2.1
    · rcases hdup with h1 | h1
      · exact absurd h1 h.2.1
      · exact absurd h1 h.2.2.1
  have hws : is_white_space c = false := by
    cases h : is_white_space c with
    | false => rfl
    | true =>
      have := (white_space_not_letter c h).2
      rw [(validate_character_input_iff c).2 hletter] at this
      exact Bool.noConfusion this
  refine ⟨by rw [hb], by rw [hb], by rw [hb], by rw [hb], by rw [hb], by rw [hb], ?_⟩
  rw [session_loop_cons w s c rest hprogress hws, hb]
  simp

/-- The step of C5 on the word CAT: a second `C` after the first. -/
theorem duplicate_guess_step_witness :
    (loop_body "CAT".toList (run_session "CAT".toList ['C']).session 'C').signal
      = .DuplicateGuess ∧
    (loop_body "CAT".toList (run_session "CAT".toList ['C']).session 'C').session.correctly_guessed_letters
      = (run_session "CAT".toList ['C']).session.correctly_guessed_letters :=
  have h := duplicate_guess_step "CAT".toList (run_session "CAT".toList ['C']).session 'C' []
    (by decide) (by decide) (by decide)
  ⟨h.1, h.2.2.1⟩

/-! ## Reasoning about whole runs of the loop -/

/-- A property of the session variables that every pass through the loop body keeps
holds when the loop stops. -/
theorem session_loop_preserves (w : List Char) (P : Session → Prop)
    (hstep : ∀ s a, P s → s.incorrect_guess_counter < maximum_incorrect_attempts →
      P (loop_body w s a).session) :
    ∀ (input : List Char) (s : Session), P s → P (session_loop w s input).session := by
  intro input
  induction input with
  | nil =>
    intro s hs
    by_cases hc : s.incorrect_guess_counter < maximum_incorrect_attempts
    · rw [session_loop_nil w s hc]; exact hs
    · rw [session_loop_of_exhausted w s [] hc]; exact hs
  | cons a rest ih =>
    intro s hs
    by_cases hsp : is_white_space a = true
    · rw [session_loop_cons_space w s a rest hsp]; exact ih s hs
    have hws : is_white_space a = false := by simpa using hsp
    by_cases hc : s.incorrect_guess_counter < maximum_incorrect_attempts
    · rw [session_loop_cons w s a rest hc hws]
      by_cases hb : (loop_body w s a).completed = true
      · simp only [hb, if_true]
        exact hstep s a hs hc
      · simp only [hb, if_false]
        exact ih _ (hstep s a hs hc)
    · rw [session_loop_of_exhausted w s _ hc]; exact hs

/-- How the loop stops tells how the incorrect counter stands against the maximum. -/
theorem session_loop_exit_counter (w : List Char) :
    ∀ (input : List Char) (s : Session),
      ((session_loop w s input).exit = .AttemptsExhausted →
        ¬ (session_loop w s input).session.incorrect_guess_counter
            < maximum_incorrect_attempts) ∧
      ((session_loop w s input).exit = .InputExhausted →
        (session_loop w s input).session.incorrect_guess_counter
            < maximum_incorrect_attempts) := by
  intro input
  induction input with
  | nil =>
    intro s
    by_cases hc : s.incorrect_guess_counter < maximum_incorrect_attempts
    · rw [session_loop_nil w s hc]; simp [hc]
    · rw [session_loop_of_exhausted w s [] hc]; simp [hc]
  | cons a rest ih =>
    intro s
    by_cases hsp : is_white_space a = true
    · rw [session_loop_cons_space w s a rest hsp]; exact ih s
    have hws : is_white_space a = false := by simpa using hsp
    by_cases hc : s.incorrect_guess_counter < maximum_incorrect_attempts
    · rw [session_loop_cons w s a rest hc hws]
      by_cases hb : (loop_body w s a).completed = true
      · simp [hb]
      · simp only [hb, if_false]
        exact ih _
    · rw [session_loop_of_exhausted w s _ hc]; simp [hc]

/-- Feeding `p ++ q` is feeding `p` and, when the loop is then still waiting for input,
going on with `q`. -/
theorem session_loop_append (w : List Char) (q : List Char) :
    ∀ (p : List Char) (s : Session),
      session_loop w s (p ++ q) =
        if (session_loop w s p).exit = .InputExhausted
        then session_loop w (session_loop w s p).session q
        else session_loop w s p := by
  intro p
  induction p with
  | nil =>
    intro s
    by_cases hc : s.incorrect_guess_counter < maximum_incorrect_attempts
    · rw [session_loop_nil w s hc]; simp
    · rw [session_loop_of_exhausted w s [] hc, session_loop_of_exhausted w s _ hc]; simp
  | cons a rest ih =>
    intro s
    by_cases hsp : is_white_space a = true
    · rw [List.cons_append, session_loop_cons_space w s a _ hsp,
        session_loop_cons_space w s a rest hsp]
      exact ih s
    have hws : is_white_space a = false := by simpa using hsp
    by_cases hc : s.incorrect_guess_counter < maximum_incorrect_attempts
    · rw [List.cons_append, session_loop_cons w s a _ hc hws,
        session_loop_cons w s a rest hc hws]
      by_cases hb : (loop_body w s a).completed = true
      · simp [hb]
      · simp only [hb, if_false]
        exact ih _
    · rw [session_loop_of_exhausted w s _ hc, session_loop_of_exhausted w s _ hc]; simp

/-- The loop body only ever appends to the correct list. -/
theorem loop_body_correct_grows (w : List Char) (s : Session) (a : Char) :
    s.correctly_guessed_letters <+: (loop_body w s a).session.correctly_guessed_letters := by
  rcases loop_body_cases w s a with h | h | h | h
  · rw [h.2]
  · rw [h.2.2]
  · rw [h.2.2.2.2]; exact List.prefix_append _ _
  · rw [h.2.2.2.2]

/-- The loop only ever appends to the correct list. -/
theorem session_loop_correct_grows (w : List Char) (input : List Char) (s : Session) :
    s.correctly_guessed_letters <+: (session_loop w s input).session.correctly_guessed_letters :=
  session_loop_preserves w
    (fun t => s.correctly_guessed_letters <+: t.correctly_guessed_letters)
    (fun t a ht _ => List.IsPrefix.trans ht (loop_body_correct_grows w t a))
    input s (List.prefix_refl _)

/-- The guess-record invariant is kept by the loop body. -/
theorem loop_body_guess_record (w : List Char) (s : Session) (a : Char)
    (h : s.correctly_guessed_letters.Nodup ∧ s.incorrectly_guessed_letters.Nodup ∧
      (∀ c ∈ s.correctly_guessed_letters, c ∈ w) ∧
      (∀ c ∈ s.incorrectly_guessed_letters, c ∉ w)) :
    (loop_body w s a).session.correctly_guessed_letters.Nodup ∧
    (loop_body w s a).session.incorrectly_guessed_letters.Nodup ∧
    (∀ c ∈ (loop_body w s a).session.correctly_guessed_letters, c ∈ w) ∧
    (∀ c ∈ (loop_body w s a).session.incorrectly_guessed_letters, c ∉ w) := by
  obtain ⟨h1, h2, h3, h4⟩ := h
  rcases loop_body_cases w s a with h | h | h | h
  · rw [h.2]; exact ⟨h1, h2, h3, h4⟩
  · rw [h.2.2]; exact ⟨h1, h2, h3, h4⟩
  · rw [h.2.2.2.2]
    refine ⟨?_, h2, ?_, h4⟩
    · exact List.Nodup.append h1 (List.nodup_singleton _) (by simpa using h.2.1)
    · intro c hc
      rcases List.mem_append.1 hc with hc | hc
      · exact h3 c hc
      · rw [List.mem_singleton.1 hc]; exact h.2.2.2.1
  · rw [h.2.2.2.2]
    refine ⟨h1, ?_, h3, ?_⟩
    · exact List.Nodup.append h2 (List.nodup_singleton _) (by simpa using h.2.2.1)
    · intro c hc
      rcases List.mem_append.1 hc with hc | hc
      · exact h4 c hc
      · rw [List.mem_singleton.1 hc]; exact h.2.2.2.1

/-- The counter invariant is kept by a loop body that is entered below the maximum. -/
theorem loop_body_counter (w : List Char) (s : Session) (a : Char)
    (h : s.incorrect_guess_counter = s.incorrectly_guessed_letters.length ∧
      s.incorrect_guess_counter ≤ maximum_incorrect_attempts)
    (hc : s.incorrect_guess_counter < maximum_incorrect_attempts) :
    (loop_body w s a).session.incorrect_guess_counter
        = (loop_body w s a).session.incorrectly_guessed_letters.length ∧
      (loop_body w s a).session.incorrect_guess_counter ≤ maximum_incorrect_attempts := by
  rcases loop_body_cases w s a with h | h | h | h
  · rw [h.2]; exact ⟨by simpa using ‹_ ∧ _›.1, by simpa using ‹_ ∧ _›.2⟩
  · rw [h.2.2]; exact ⟨by simpa using ‹_ ∧ _›.1, by simpa using ‹_ ∧ _›.2⟩
  · rw [h.2.2.2.2]; exact ⟨by simpa using ‹_ ∧ _›.1, by simpa using ‹_ ∧ _›.2⟩
  · rw [h.2.2.2.2]
    refine ⟨?_, ?_⟩
    · simp only [List.length_append, List.length_singleton]
      omega
    · show s.incorrect_guess_counter + 1 ≤ maximum_incorrect_attempts
      omega

/-! ## Normalised guesses -/

theorem mem_normalised_guesses_cons (c a : Char) (p : List Char) :
    c ∈ normalised_guesses (a :: p) ↔
      (c = toupper a ∧ validate_character_input (toupper a) = true) ∨
        c ∈ normalised_guesses p := by
  unfold normalised_guesses
  simp only [List.map_cons, List.mem_filter, List.mem_cons]
  constructor
  · rintro ⟨h1 | h1, h2⟩
    · left; exact ⟨h1, h1 ▸ h2⟩
    · right; exact ⟨h1, h2⟩
  · rintro (⟨h1, h2⟩ | ⟨h1, h2⟩)
    · exact ⟨Or.inl h1, h1 ▸ h2⟩
    · exact ⟨Or.inr h1, h2⟩

theorem mem_wrong_letters (c : Char) (w p : List Char) :
    c ∈ wrong_letters w p ↔ c ∈ normalised_guesses p ∧ c ∉ w := by
  unfold wrong_letters
  simp [List.mem_filter, check_letter_in_word_eq_false_iff]

theorem mem_wrong_letters_cons (c a : Char) (w p : List Char) :
    c ∈ wrong_letters w (a :: p) ↔
      (c = toupper a ∧ validate_character_input (toupper a) = true ∧ toupper a ∉ w) ∨
        c ∈ wrong_letters w p := by
  rw [mem_wrong_letters, mem_wrong_letters, mem_normalised_guesses_cons]
  constructor
  · rintro ⟨⟨h1, h2⟩ | h1, h3⟩
    · left; exact ⟨h1, h2, h1 ▸ h3⟩
    · right; exact ⟨h1, h3⟩
  · rintro (⟨h1, h2, h3⟩ | ⟨h1, h3⟩)
    · exact ⟨Or.inl ⟨h1, h2⟩, h1 ▸ h3⟩
    · exact ⟨Or.inr h1, h3⟩

/-- The entries of a duplicate-free incorrect list are counted by the distinct wrong
letters of any list that contains them. -/
theorem length_le_card_append (l m : List Char) (h : l.Nodup) :
    l.length ≤ (l ++ m).toFinset.card := by
  rw [← List.toFinset_card_of_nodup h]
  apply Finset.card_le_card
  intro x hx
  simp only [List.mem_toFinset, List.mem_append] at hx ⊢
  exact Or.inl hx

/-- When the loop is left through the `break`, the completion check holds of the
correct list. -/
theorem loop_body_completed (w : List Char) (s : Session) (a : Char)
    (h : (loop_body w s a).completed = true) :
    evaluate_game_completion_status w (loop_body w s a).session.correctly_guessed_letters
      = true := by
  rcases loop_body_cases w s a with hb | hb | hb | hb
  · rw [hb.2] at h; exact Bool.noConfusion h
  · rw [hb.2.2] at h; exact Bool.noConfusion h
  · rw [hb.2.2.2.2] at h ⊢; exact h
  · rw [hb.2.2.2.2] at h ⊢; exact h

theorem session_loop_completed (w : List Char) :
    ∀ (input : List Char) (s : Session),
      (session_loop w s input).exit = .WordCompleted →
      evaluate_game_completion_status w
        (session_loop w s input).session.correctly_guessed_letters = true := by
  intro input
  induction input with
  | nil =>
    intro s
    by_cases hc : s.incorrect_guess_counter < maximum_incorrect_attempts
    · rw [session_loop_nil w s hc]; simp
    · rw [session_loop_of_exhausted w s [] hc]; simp
  | cons a rest ih =>
    intro s
    by_cases hsp : is_white_space a = true
    · rw [session_loop_cons_space w s a rest hsp]; exact ih s
    have hws : is_white_space a = false := by simpa using hsp
    by_cases hc : s.incorrect_guess_counter < maximum_incorrect_attempts
    · rw [session_loop_cons w s a rest hc hws]
      by_cases hb : (loop_body w s a).completed = true
      · simp only [hb, if_true]
        intro _
        exact loop_body_completed w s a hb
      · simp only [hb, if_false]
        exact ih _
    · rw [session_loop_of_exhausted w s _ hc]; simp

/-- Winning, from any state of a session: when the guesses `p` still to come reveal the
rest of the word and, together with the incorrect list, hold fewer than the maximum of
distinct wrong letters, the loop is left through the `break`. -/
theorem session_loop_won (w rest : List Char) :
    ∀ (p : List Char) (s : Session),
      s.incorrect_guess_counter = s.incorrectly_guessed_letters.length →
      s.incorrectly_guessed_letters.Nodup →
      (∀ c ∈ s.incorrectly_guessed_letters, c ∉ w) →
      evaluate_game_completion_status w s.correctly_guessed_letters = false →
      (∀ c ∈ w, c ∈ s.correctly_guessed_letters ∨ c ∈ normalised_guesses p) →
      (s.incorrectly_guessed_letters ++ wrong_letters w p).toFinset.card
        < maximum_incorrect_attempts →
      (session_loop w s (p ++ rest)).exit = .WordCompleted := by
  intro p
  induction p with
  | nil =>
    intro s _ _ _ hev hcover _
    have : evaluate_game_completion_status w s.correctly_guessed_letters = true := by
      rw [evaluate_game_completion_status_iff]
      intro c hc
      rcases hcover c hc with h | h
      · exact h
      · simp [normalised_guesses] at h
    rw [hev] at this
    exact Bool.noConfusion this
  | cons a p ih =>
    intro s hlen hnd hinc hev hcover hcard
    have hlt : s.incorrect_guess_counter < maximum_incorrect_attempts := by
      have := length_le_card_append s.incorrectly_guessed_letters (wrong_letters w (a :: p)) hnd
      omega
    by_cases hsp : is_white_space a = true
    · rw [List.cons_append, session_loop_cons_space w s a _ hsp]
      have hnv := (white_space_not_letter a hsp).1
      refine ih s hlen hnd hinc hev ?_ ?_
      · intro c hc
        rcases hcover c hc with h | h
        · exact Or.inl h
        · rcases (mem_normalised_guesses_cons c a p).1 h with ⟨_, h2⟩ | h
          · rw [hnv] at h2; exact Bool.noConfusion h2
          · exact Or.inr h
      · refine lt_of_le_of_lt (Finset.card_le_card ?_) hcard
        intro x hx
        simp only [List.mem_toFinset, List.mem_append] at hx ⊢
        rcases hx with hx | hx
        · exact Or.inl hx
        · exact Or.inr ((mem_wrong_letters_cons x a w p).2 (Or.inr hx))
    have hws : is_white_space a = false := by simpa using hsp
    rw [List.cons_append, session_loop_cons w s a _ hlt hws]
    rcases loop_body_cases w s a with hb | hb | hb | hb
    · rw [hb.2]
      simp only [Bool.false_eq_true, if_false]
      refine ih { s with session_attempt_counter := s.session_attempt_counter + 1 }
        hlen hnd hinc hev ?_ ?_
      · intro c hc
        rcases hcover c hc with h | h
        · exact Or.inl h
        · rcases (mem_normalised_guesses_cons c a p).1 h with ⟨_, h2⟩ | h
          · rw [hb.1] at h2; exact Bool.noConfusion h2
          · exact Or.inr h
      · refine lt_of_le_of_lt (Finset.card_le_card ?_) hcard
        intro x hx
        simp only [List.mem_toFinset, List.mem_append] at hx ⊢
        rcases hx with hx | hx
        · exact Or.inl hx
        · exact Or.inr ((mem_wrong_letters_cons x a w p).2 (Or.inr hx))
    · rw [hb.2.2]
      simp only [Bool.false_eq_true, if_false]
      refine ih { s with session_attempt_counter := s.session_attempt_counter + 1 }
        hlen hnd hinc hev ?_ ?_
      · intro c hc
        rcases hcover c hc with h | h
        · exact Or.inl h
        · rcases (mem_normalised_guesses_cons c a p).1 h with ⟨h1, _⟩ | h
          · rcases hb.2.1 with h3 | h3
            · exact Or.inl (h1 ▸ h3)
            · exact absurd hc (h1 ▸ hinc _ h3)
          · exact Or.inr h
      · refine lt_of_le_of_lt (Finset.card_le_card ?_) hcard
        intro x hx
        simp only [List.mem_toFinset, List.mem_append] at hx ⊢
        rcases hx with hx | hx
        · exact Or.inl hx
        · exact Or.inr ((mem_wrong_letters_cons x a w p).2 (Or.inr hx))
    · rw [hb.2.2.2.2]
      by_cases he : evaluate_game_completion_status w
          (s.correctly_guessed_letters ++ [toupper a]) = true
      · simp [he]
      · simp only [he, if_false]
        refine ih { s with
            correctly_guessed_letters := s.correctly_guessed_letters ++ [toupper a]
            session_attempt_counter := s.session_attempt_counter + 1 }
          hlen hnd hinc ?_ ?_ ?_
        · simpa using he
        · intro c hc
          simp only [List.mem_append, List.mem_singleton]
          rcases hcover c hc with h | h
          · exact Or.inl (Or.inl h)
          · rcases (mem_normalised_guesses_cons c a p).1 h with ⟨h1, _⟩ | h
            · exact Or.inl (Or.inr h1)
            · exact Or.inr h
        · refine lt_of_le_of_lt (Finset.card_le_card ?_) hcard
          intro x hx
          simp only [List.mem_toFinset, List.mem_append] at hx ⊢
          rcases hx with hx | hx
          · exact Or.inl hx
          · exact Or.inr ((mem_wrong_letters_cons x a w p).2 (Or.inr hx))
    · rw [hb.2.2.2.2]
      simp only [hev, Bool.false_eq_true, if_false]
      apply ih
      · simp [hlen]
      · exact List.Nodup.append hnd (List.nodup_singleton _) (by simpa using hb.2.2.1)
      · intro c hc
        rcases List.mem_append.1 hc with hc | hc
        · exact hinc c hc
        · rw [List.mem_singleton.1 hc]; exact hb.2.2.2.1
      · exact hev
      · intro c hc
        rcases hcover c hc with h | h
        · exact Or.inl h
        · rcases (mem_normalised_guesses_cons c a p).1 h with ⟨h1, _⟩ | h
          · exact absurd hc (h1 ▸ hb.2.2.2.1)
          · exact Or.inr h
      · refine lt_of_le_of_lt (Finset.card_le_card ?_) hcard
        intro x hx
        simp only [List.mem_toFinset, List.mem_append, List.mem_singleton] at hx ⊢
        rcases hx with (hx | hx) | hx
        · exact Or.inl hx
        · exact Or.inr ((mem_wrong_letters_cons x a w p).2
            (Or.inl ⟨hx, hb.1, hb.2.2.2.1⟩))
        · exact Or.inr ((mem_wrong_letters_cons x a w p).2 (Or.inr hx))

/-- Losing, from any state of a session: when the guesses `p` still to come do not
reveal the rest of the word and, together with the incorrect list, hold at least the
maximum of distinct wrong letters, the loop is left through its condition. -/
theorem session_loop_lost (w rest : List Char) :
    ∀ (p : List Char) (s : Session),
      s.incorrect_guess_counter = s.incorrectly_guessed_letters.length →
      s.incorrectly_guessed_letters.Nodup →
      (∀ c ∈ s.incorrectly_guessed_letters, c ∉ w) →
      (∀ c ∈ s.correctly_guessed_letters, c ∈ w) →
      ¬ (∀ c ∈ w, c ∈ s.correctly_guessed_letters ∨ c ∈ normalised_guesses p) →
      maximum_incorrect_attempts
        ≤ (s.incorrectly_guessed_letters ++ wrong_letters w p).toFinset.card →
      (session_loop w s (p ++ rest)).exit = .AttemptsExhausted := by
  intro p
  induction p with
  | nil =>
    intro s hlen hnd _ _ _ hcard
    have hc : ¬ s.incorrect_guess_counter < maximum_incorrect_attempts := by
      have e : wrong_letters w [] = [] := rfl
      rw [e, List.append_nil, List.toFinset_card_of_nodup hnd] at hcard
      omega
    rw [session_loop_of_exhausted w s _ hc]
  | cons a p ih =>
    intro s hlen hnd hinc hcor hnot hcard
    by_cases hlt : s.incorrect_guess_counter < maximum_incorrect_attempts
    swap
    · rw [session_loop_of_exhausted w s _ hlt]
    by_cases hsp : is_white_space a = true
    · rw [List.cons_append, session_loop_cons_space w s a _ hsp]
      have hnv := (white_space_not_letter a hsp).1
      refine ih s hlen hnd hinc hcor ?_ ?_
      · intro h
        apply hnot
        intro c hc
        rcases h c hc with h1 | h1
        · exact Or.inl h1
        · exact Or.inr ((mem_normalised_guesses_cons c a p).2 (Or.inr h1))
      · refine le_trans hcard (Finset.card_le_card ?_)
        intro x hx
        simp only [List.mem_toFinset, List.mem_append] at hx ⊢
        rcases hx with hx | hx
        · exact Or.inl hx
        · rcases (mem_wrong_letters_cons x a w p).1 hx with ⟨_, h2, _⟩ | h
          · rw [hnv] at h2; exact Bool.noConfusion h2
          · exact Or.inr h
    have hws : is_white_space a = false := by simpa using hsp
    rw [List.cons_append, session_loop_cons w s a _ hlt hws]
    rcases loop_body_cases w s a with hb | hb | hb | hb
    · rw [hb.2]
      simp only [Bool.false_eq_true, if_false]
      refine ih { s with session_attempt_counter := s.session_attempt_counter + 1 }
        hlen hnd hinc hcor ?_ ?_
      · intro h
        apply hnot
        intro c hc
        rcases h c hc with h1 | h1
        · exact Or.inl h1
        · exact Or.inr ((mem_normalised_guesses_cons c a p).2 (Or.inr h1))
      · refine le_trans hcard (Finset.card_le_card ?_)
        intro x hx
        simp only [List.mem_toFinset, List.mem_append] at hx ⊢
        rcases hx with hx | hx
        · exact Or.inl hx
        · rcases (mem_wrong_letters_cons x a w p).1 hx with ⟨_, h2, _⟩ | h
          · rw [hb.1] at h2; exact Bool.noConfusion h2
          · exact Or.inr h
    · rw [hb.2.2]
      simp only [Bool.false_eq_true, if_false]
      refine ih { s with session_attempt_counter := s.session_attempt_counter + 1 }
        hlen hnd hinc hcor ?_ ?_
      · intro h
        apply hnot
        intro c hc
        rcases h c hc with h1 | h1
        · exact Or.inl h1
        · exact Or.inr ((mem_normalised_guesses_cons c a p).2 (Or.inr h1))
      · refine le_trans hcard (Finset.card_le_card ?_)
        intro x hx
        simp only [List.mem_toFinset, List.mem_append] at hx ⊢
        rcases hx with hx | hx
        · exact Or.inl hx
        · rcases (mem_wrong_letters_cons x a w p).1 hx with ⟨h1, _, h3⟩ | h
          · rcases hb.2.1 with h4 | h4
            · exact absurd (hcor _ h4) h3
            · exact Or.inl (h1 ▸ h4)
          · exact Or.inr h
    · rw [hb.2.2.2.2]
      have hnot3 : ¬ (∀ c ∈ w, c ∈ s.correctly_guessed_letters ++ [toupper a] ∨
          c ∈ normalised_guesses p) := by
        intro h
        apply hnot
        intro c hc
        rcases h c hc with h1 | h1
        · rcases List.mem_append.1 h1 with h2 | h2
          · exact Or.inl h2
          · exact Or.inr ((mem_normalised_guesses_cons c a p).2
              (Or.inl ⟨List.mem_singleton.1 h2, hb.1⟩))
        · exact Or.inr ((mem_normalised_guesses_cons c a p).2 (Or.inr h1))
      have he : evaluate_game_completion_status w
          (s.correctly_guessed_letters ++ [toupper a]) = false := by
        rw [evaluate_game_completion_status_eq_false_iff]
        intro h
        exact hnot3 (fun c hc => Or.inl (h c hc))
      simp only [he, Bool.false_eq_true, if_false]
      refine ih { s with
          correctly_guessed_letters := s.correctly_guessed_letters ++ [toupper a]
          session_attempt_counter := s.session_attempt_counter + 1 }
        hlen hnd hinc ?_ hnot3 ?_
      · intro c hc
        rcases List.mem_append.1 hc with hc | hc
        · exact hcor c hc
        · rw [List.mem_singleton.1 hc]; exact hb.2.2.2.1
      · refine le_trans hcard (Finset.card_le_card ?_)
        intro x hx
        simp only [List.mem_toFinset, List.mem_append] at hx ⊢
        rcases hx with hx | hx
        · exact Or.inl hx
        · rcases (mem_wrong_letters_cons x a w p).1 hx with ⟨_, _, h3⟩ | h
          · exact absurd hb.2.2.2.1 h3
          · exact Or.inr h
    · rw [hb.2.2.2.2]
      have hnot3 : ¬ (∀ c ∈ w, c ∈ s.correctly_guessed_letters ∨
          c ∈ normalised_guesses p) := by
        intro h
        apply hnot
        intro c hc
        rcases h c hc with h1 | h1
        · exact Or.inl h1
        · exact Or.inr ((mem_normalised_guesses_cons c a p).2 (Or.inr h1))
      have he : evaluate_game_completion_status w s.correctly_guessed_letters = false := by
        rw [evaluate_game_completion_status_eq_false_iff]
        intro h
        exact hnot3 (fun c hc => Or.inl (h c hc))
      simp only [he, Bool.false_eq_true, if_false]
      refine ih { s with
          incorrectly_guessed_letters := s.incorrectly_guessed_letters ++ [toupper a]
          incorrect_guess_counter := s.incorrect_guess_counter + 1
          session_attempt_counter := s.session_attempt_counter + 1 }
        ?_ ?_ ?_ hcor hnot3 ?_
      · simp [hlen]
      · exact List.Nodup.append hnd (List.nodup_singleton _) (by simpa using hb.2.2.1)
      · intro c hc
        rcases List.mem_append.1 hc with hc | hc
        · exact hinc c hc
        · rw [List.mem_singleton.1 hc]; exact hb.2.2.2.1
      · refine le_trans hcard (Finset.card_le_card ?_)
        intro x hx
        simp only [List.mem_toFinset, List.mem_append, List.mem_singleton] at hx ⊢
        rcases hx with hx | hx
        · exact Or.inl (Or.inl hx)
        · rcases (mem_wrong_letters_cons x a w p).1 hx with ⟨h1, _, _⟩ | h
          · exact Or.inl (Or.inr h1)
          · exact Or.inr h

/-- The counter invariant holds whenever the loop stops. -/
theorem run_session_counter (w input : List Char) :
    (run_session w input).session.incorrect_guess_counter
        = (run_session w input).session.incorrectly_guessed_letters.length ∧
      (run_session w input).session.incorrect_guess_counter ≤ maximum_incorrect_attempts :=
  session_loop_preserves w
    (fun t => t.incorrect_guess_counter = t.incorrectly_guessed_letters.length ∧
      t.incorrect_guess_counter ≤ maximum_incorrect_attempts)
    (fun t a ht hc => loop_body_counter w t a ht hc)
    input Session.initial ⟨rfl, by decide⟩

/-! ## Winning and losing -/

/-- C2, as stated, fails. On CAT the guesses X, Y, Z, Q, W, V, C, A, T hold every letter
of the word, yet the session is lost after the sixth guess. For the empty word no guess
at all already holds every letter of the word, and the session is still in progress. For
the lowercase word cat the guesses c, a, t are compared as C, A, T and never win. -/
theorem covering_guesses_need_not_win :
    ((∀ c ∈ "CAT".toList, c ∈ "XYZQWVCAT".toList) ∧
      (run_session "CAT".toList "XYZQWVCAT".toList).state = .Lost ∧
      (run_session "CAT".toList "XYZQWVCAT".toList).counted_as_success = false) ∧
    ((∀ c ∈ ([] : List Char), c ∈ ([] : List Char)) ∧
      (run_session [] []).state = .InProgress) ∧
    ((∀ c ∈ "cat".toList, c ∈ "cat".toList) ∧
      (run_session "cat".toList "cat".toList).state = .InProgress) := by
  decide

/-- C2, amended: for every non-empty target word and every guess sequence with a prefix
whose normalised guesses (uppercased, letters only) hold every character of the word and
fewer than six distinct letters that are not in the word, the session loop is left
through the `break`: the session is Won, it is counted as a success and
`evaluate_game_completion_status` holds of the final correct list. -/
theorem win_reached (w input p : List Char)
    (hnonempty : w ≠ [])
    (hpfx : p <+: input)
    (hcover : ∀ c ∈ w, c ∈ normalised_guesses p)
    (hfew : (wrong_letters w p).toFinset.card < maximum_incorrect_attempts) :
    (run_session w input).state = .Won ∧
    (run_session w input).counted_as_success = true ∧
    evaluate_game_completion_status w
      (run_session w input).session.correctly_guessed_letters = true := by
  obtain ⟨rest, rfl⟩ := hpfx
  have hexit : (run_session w (p ++ rest)).exit = .WordCompleted := by
    apply session_loop_won w rest p Session.initial rfl List.nodup_nil
    · intro c hc; simp [Session.initial] at hc
    · rw [evaluate_game_completion_status_eq_false_iff]
      intro h
      cases w with
      | nil => exact hnonempty rfl
      | cons x xs =>
        have := h x (List.mem_cons_self x xs)
        simp [Session.initial] at this
    · intro c hc; exact Or.inr (hcover c hc)
    · simpa [Session.initial] using hfew
  refine ⟨?_, ?_, session_loop_completed w _ _ hexit⟩
  · simp [LoopResult.state, hexit]
  · simp [LoopResult.counted_as_success, hexit]

/-- The scenario of C2: CAT with the guesses C, A, T is Won with 3 attempts, and is in
progress after C (mask `C _ _`) and after A (mask `C A _`). -/
theorem win_reached_witness :
    (run_session "CAT".toList "CAT".toList).state = .Won ∧
    (run_session "CAT".toList "CAT".toList).session.session_attempt_counter = 3 ∧
    (run_session "CAT".toList "C".toList).state = .InProgress ∧
    word_progress_mask "CAT".toList
      (run_session "CAT".toList "C".toList).session.correctly_guessed_letters
      = [some 'C', none, none] ∧
    (run_session "CAT".toList "CA".toList).state = .InProgress ∧
    word_progress_mask "CAT".toList
      (run_session "CAT".toList "CA".toList).session.correctly_guessed_letters
      = [some 'C', some 'A', none] ∧
    word_progress_mask "CAT".toList
      (run_session "CAT".toList "CAT".toList).session.correctly_guessed_letters
      = [some 'C', some 'A', some 'T'] :=
  ⟨(win_reached "CAT".toList "CAT".toList "CAT".toList (by decide) (List.prefix_refl _)
      (by decide) (by decide)).1,
    by decide, by decide, by decide, by decide, by decide, by decide⟩

/-- C3: when some prefix of the guess sequence holds at least six distinct letters that
are not in the word while its normalised guesses do not yet hold every character of the
word, the session loop is left through its condition: the session is Lost, the incorrect
counter is 6, the session is not counted as a success and the failure branch after the
loop is taken. -/
theorem loss_reached (w input p : List Char)
    (hpfx : p <+: input)
    (hmany : maximum_incorrect_attempts ≤ (wrong_letters w p).toFinset.card)
    (hhidden : ¬ ∀ c ∈ w, c ∈ normalised_guesses p) :
    (run_session w input).state = .Lost ∧
    (run_session w input).exit = .AttemptsExhausted ∧
    (run_session w input).session.incorrect_guess_counter = 6 ∧
    (run_session w input).counted_as_success = false ∧
    (run_session w input).failure_branch_taken = true := by
  obtain ⟨rest, rfl⟩ := hpfx
  have hexit : (run_session w (p ++ rest)).exit = .AttemptsExhausted := by
    apply session_loop_lost w rest p Session.initial rfl List.nodup_nil
    · intro c hc; simp [Session.initial] at hc
    · intro c hc; simp [Session.initial] at hc
    · intro h
      apply hhidden
      intro c hc
      rcases h c hc with h1 | h1
      · simp [Session.initial] at h1
      · exact h1
    · simpa [Session.initial] using hmany
  have hge := (session_loop_exit_counter w (p ++ rest) Session.initial).1 hexit
  have hle := (run_session_counter w (p ++ rest)).2
  have hsix : (run_session w (p ++ rest)).session.incorrect_guess_counter = 6 := by
    unfold run_session maximum_incorrect_attempts at *
    omega
  refine ⟨?_, hexit, hsix, ?_, ?_⟩
  · simp [LoopResult.state, hexit]
  · simp [LoopResult.counted_as_success, hexit]
  · simp [LoopResult.failure_branch_taken, hexit, hsix, maximum_incorrect_attempts]

/-- The scenario of C3: DOG with the guesses X, Y, Z, Q, W, V is Lost with an incorrect
counter of 6 and 6 attempts. -/
theorem loss_reached_witness :
    (run_session "DOG".toList "XYZQWV".toList).state = .Lost ∧
    (run_session "DOG".toList "XYZQWV".toList).session.incorrect_guess_counter = 6 ∧
    (run_session "DOG".toList "XYZQWV".toList).session.session_attempt_counter = 6 :=
  have h := loss_reached "DOG".toList "XYZQWV".toList "XYZQWV".toList (List.prefix_refl _)
    (by decide) (by decide)
  ⟨h.1, h.2.2.1, by decide⟩

/-! ## Invariants of the session -/

/-- C6: whatever the word and the input, when the loop stops (after any number of
guesses) no character is in both the correct and the incorrect list, neither list holds
a character twice, every character of the correct list occurs in the word and no
character of the incorrect list does. -/
theorem guess_record_invariant (w input : List Char) :
    (∀ c, ¬ (c ∈ (run_session w input).session.correctly_guessed_letters ∧
      c ∈ (run_session w input).session.incorrectly_guessed_letters)) ∧
    (run_session w input).session.correctly_guessed_letters.Nodup ∧
    (run_session w input).session.incorrectly_guessed_letters.Nodup ∧
    (∀ c ∈ (run_session w input).session.correctly_guessed_letters, c ∈ w) ∧
    (∀ c ∈ (run_session w input).session.incorrectly_guessed_letters, c ∉ w) := by
  have h := session_loop_preserves w
    (fun t => t.correctly_guessed_letters.Nodup ∧ t.incorrectly_guessed_letters.Nodup ∧
      (∀ c ∈ t.correctly_guessed_letters, c ∈ w) ∧
      (∀ c ∈ t.incorrectly_guessed_letters, c ∉ w))
    (fun t a ht _ => loop_body_guess_record w t a ht)
    input Session.initial
    ⟨List.nodup_nil, List.nodup_nil, by simp [Session.initial], by simp [Session.initial]⟩
  exact ⟨fun c hc => h.2.2.2 c hc.2 (h.2.2.1 c hc.1), h.1, h.2.1, h.2.2.1, h.2.2.2⟩

/-- C7: whenever the loop stops, the incorrect counter is the length of the incorrect
list and at most `maximum_incorrect_attempts`, which is 6; it is exactly 6 when the
session is Lost, and whenever the failure branch after the loop is taken. -/
theorem incorrect_count_bound (w input : List Char) :
    (run_session w input).session.incorrect_guess_counter
      = (run_session w input).session.incorrectly_guessed_letters.length ∧
    (run_session w input).session.incorrect_guess_counter ≤ maximum_incorrect_attempts ∧
    maximum_incorrect_attempts = 6 ∧
    ((run_session w input).state = .Lost →
      (run_session w input).session.incorrect_guess_counter = 6) ∧
    ((run_session w input).failure_branch_taken = true →
      (run_session w input).session.incorrect_guess_counter = 6) := by
  have hinv := run_session_counter w input
  have hle := hinv.2
  refine ⟨hinv.1, hinv.2, rfl, ?_, ?_⟩
  · intro hlost
    have hexit : (run_session w input).exit = .AttemptsExhausted := by
      cases he : (run_session w input).exit <;> simp [LoopResult.state, he] at hlost
      rfl
    have hge := (session_loop_exit_counter w input Session.initial).1 hexit
    unfold run_session maximum_incorrect_attempts at *
    omega
  · intro hfail
    simp only [LoopResult.failure_branch_taken, Bool.and_eq_true, decide_eq_true_eq] at hfail
    unfold maximum_incorrect_attempts at *
    omega

/-! ## Completion check and mask -/

/-- C8: `evaluate_game_completion_status w g` is true exactly when every character of
the word is among the guessed letters, which is exactly when the mask of
`display_word_progress` holds no placeholder; for a word without an underscore that is
exactly when the printed text holds no underscore. It is true for the empty word and
depends only on which characters are in `g`, not on their order or multiplicity. -/
theorem completion_agrees_with_mask (w g : List Char) :
    (evaluate_game_completion_status w g = true ↔ ∀ c ∈ w, c ∈ g) ∧
    ((∀ c ∈ w, c ∈ g) ↔ none ∉ word_progress_mask w g) ∧
    ('_' ∉ w → ((∀ c ∈ w, c ∈ g) ↔ '_' ∉ display_word_progress w g)) ∧
    evaluate_game_completion_status [] g = true ∧
    (∀ g2 : List Char, (∀ c, c ∈ g ↔ c ∈ g2) →
      evaluate_game_completion_status w g2 = evaluate_game_completion_status w g) := by
  have hmask : (∀ c ∈ w, c ∈ g) ↔ none ∉ word_progress_mask w g := by
    rw [word_progress_mask_eq_map]
    simp only [List.mem_map, not_exists, not_and]
    constructor
    · intro h c hc
      simp [h c hc]
    · intro h c hc
      by_contra hcg
      exact h c hc (by simp [hcg])
  refine ⟨evaluate_game_completion_status_iff w g, hmask, ?_, rfl, ?_⟩
  · intro hw
    have hpre : '_' ∉ "\nWord Progress: ".toList := by decide
    unfold display_word_progress
    rw [word_progress_mask_eq_map]
    simp only [List.mem_append, List.mem_flatten, List.mem_map, List.mem_singleton]
    constructor
    · intro h
      rintro ((h1 | ⟨l, ⟨e, ⟨c, hc, rfl⟩, rfl⟩, hl⟩) | h1)
      · exact hpre h1
      · simp only [h c hc, if_true, render_mask_entry, List.mem_cons, List.mem_singleton,
          List.not_mem_nil, or_false] at hl
        rcases hl with hl | hl
        · exact hw (hl ▸ hc)
        · exact absurd hl (by decide)
      · exact absurd h1 (by decide)
    · intro h c hc
      by_contra hcg
      apply h
      left; right
      refine ⟨['_', ' '], ⟨none, ⟨c, hc, by simp [hcg]⟩, rfl⟩, by simp⟩
  · intro g2 hg
    have h1 := evaluate_game_completion_status_iff w g
    have h2 := evaluate_game_completion_status_iff w g2
    have h3 : (∀ c ∈ w, c ∈ g) ↔ ∀ c ∈ w, c ∈ g2 :=
      ⟨fun h c hc => (hg c).1 (h c hc), fun h c hc => (hg c).2 (h c hc)⟩
    rw [Bool.eq_iff_iff, h1, h2, h3]

/-- C9: the mask of `display_word_progress` has one entry per position of the word; the
entry at position `i` is the character `w[i]` when that character is among the guessed
letters and the placeholder otherwise, printed as the character or `_` followed by a
blank; so a guessed character is revealed at every position where it occurs. -/
theorem mask_definition (w g : List Char) :
    (word_progress_mask w g).length = w.length ∧
    (∀ (i : Nat) (h : i < w.length),
      (word_progress_mask w g)[i]? = some (if w[i] ∈ g then some w[i] else none)) ∧
    display_word_progress w g =
      "\nWord Progress: ".toList
        ++ (w.map (fun c => [if c ∈ g then c else '_', ' '])).flatten ++ ['\n'] ∧
    (∀ (c : Char) (i : Nat) (h : i < w.length), c ∈ g → w[i] = c →
      (word_progress_mask w g)[i]? = some (some c)) := by
  have hget : ∀ (i : Nat) (h : i < w.length),
      (word_progress_mask w g)[i]? = some (if w[i] ∈ g then some w[i] else none) := by
    intro i h
    rw [word_progress_mask_eq_map, List.getElem?_map, List.getElem?_eq_getElem h]
    rfl
  refine ⟨?_, hget, ?_, ?_⟩
  · rw [word_progress_mask_eq_map, List.length_map]
  · unfold display_word_progress
    rw [word_progress_mask_eq_map, List.map_map]
    congr 3
    apply List.map_congr_left
    intro c _
    by_cases hc : c ∈ g <;> simp [hc, render_mask_entry]
  · intro c i h hc hi
    rw [hget i h, hi, if_pos hc]

/-- A position revealed under some guessed letters is revealed, with the same
character, under any guessed letters that include them. -/
theorem word_progress_mask_mono (w g g2 : List Char) (hsub : ∀ c ∈ g, c ∈ g2)
    (i : Nat) (c : Char) (h : (word_progress_mask w g)[i]? = some (some c)) :
    (word_progress_mask w g2)[i]? = some (some c) := by
  rw [word_progress_mask_eq_map, List.getElem?_map] at h ⊢
  cases hw : w[i]? with
  | none => rw [hw] at h; simp at h
  | some x =>
    rw [hw] at h
    simp only [Option.map, Option.some.injEq] at h ⊢
    by_cases hx : x ∈ g
    · rw [if_pos hx] at h
      rw [if_pos (hsub x hx)]
      exact h
    · rw [if_neg hx] at h
      exact Option.noConfusion h

/-- C10: over a session the correct list only grows: one pass through the loop body, and
any further input `q` after the input `p`, keep the earlier correct list as a prefix. So
a position of the mask that is revealed after `p` is revealed with the same character
after `p ++ q`. Appending to the guessed letters a character they already hold leaves
the mask as it is. -/
theorem mask_monotone (w p q : List Char) :
    (∀ (s : Session) (a : Char),
      s.correctly_guessed_letters <+: (loop_body w s a).session.correctly_guessed_letters) ∧
    (run_session w p).session.correctly_guessed_letters
      <+: (run_session w (p ++ q)).session.correctly_guessed_letters ∧
    (∀ (i : Nat) (c : Char),
      (word_progress_mask w (run_session w p).session.correctly_guessed_letters)[i]?
        = some (some c) →
      (word_progress_mask w (run_session w (p ++ q)).session.correctly_guessed_letters)[i]?
        = some (some c)) ∧
    (∀ (g : List Char) (c : Char), c ∈ g →
      word_progress_mask w (g ++ [c]) = word_progress_mask w g) := by
  have hpre : (run_session w p).session.correctly_guessed_letters
      <+: (run_session w (p ++ q)).session.correctly_guessed_letters := by
    unfold run_session
    rw [session_loop_append w q p Session.initial]
    by_cases he : (session_loop w Session.initial p).exit = .InputExhausted
    · rw [if_pos he]
      exact session_loop_correct_grows w q _
    · rw [if_neg he]
  refine ⟨fun s a => loop_body_correct_grows w s a, hpre, ?_, ?_⟩
  · intro i c h
    exact word_progress_mask_mono w _ _ (fun x hx => hpre.subset hx) i c h
  · intro g c hc
    rw [word_progress_mask_eq_map, word_progress_mask_eq_map]
    apply List.map_congr_left
    intro x _
    by_cases hx : x ∈ g
    · simp [hx]
    · have : x ≠ c := fun e => hx (e ▸ hc)
      simp [hx, this]

/-! ## Case normalisation -/

theorem toupper_idem (c : Char) : toupper (toupper c) = toupper c := by
  by_cases hl : 'a' ≤ c ∧ c ≤ 'z'
  · have h := toupper_of_lower c hl
    exact toupper_of_upper _ ⟨h.1, h.2.1⟩
  · rw [toupper_of_not_lower c hl, toupper_of_not_lower c hl]

/-- After `toupper` the validation accepts exactly the uppercase letters. -/
theorem validate_toupper_iff (c : Char) :
    validate_character_input (toupper c) = true ↔ ('A' ≤ toupper c ∧ toupper c ≤ 'Z') := by
  rw [validate_character_input_iff]
  constructor
  · rintro (h | h)
    · exact h
    · exfalso
      by_cases hl : 'a' ≤ c ∧ c ≤ 'z'
      · have hu := toupper_of_lower c hl
        have h1 := h.1
        have h2 := hu.2.1
        rw [char_le_iff] at h1 h2
        have e1 : ('a' : Char).toNat = 97 := by decide
        have e2 : ('Z' : Char).toNat = 90 := by decide
        omega
      · rw [toupper_of_not_lower c hl] at h
        exact hl h
  · intro h
    exact Or.inl h

/-- The loop body sees its input only through `toupper`. -/
theorem loop_body_toupper (w : List Char) (s : Session) (a b : Char)
    (h : toupper a = toupper b) : loop_body w s a = loop_body w s b := by
  unfold loop_body
  simp only [h]

/-- Changing the case of a character does not make or unmake white space. -/
theorem is_white_space_toupper (a : Char) : is_white_space (toupper a) = is_white_space a := by
  by_cases hl : 'a' ≤ a ∧ a ≤ 'z'
  · have hu := toupper_of_lower a hl
    have h1 : is_white_space a = false := by
      cases h : is_white_space a with
      | false => rfl
      | true =>
        have := (white_space_not_letter a h).2
        rw [(validate_character_input_iff a).2 (Or.inr hl)] at this
        exact Bool.noConfusion this
    have h2 : is_white_space (toupper a) = false := by
      cases h : is_white_space (toupper a) with
      | false => rfl
      | true =>
        have := (white_space_not_letter (toupper a) h).2
        rw [(validate_character_input_iff (toupper a)).2 (Or.inl ⟨hu.1, hu.2.1⟩)] at this
        exact Bool.noConfusion this
    rw [h1, h2]
  · rw [toupper_of_not_lower a hl]

theorem session_loop_toupper (w : List Char) :
    ∀ (input input2 : List Char) (s : Session),
      input.map toupper = input2.map toupper →
      session_loop w s input = session_loop w s input2 := by
  intro input
  induction input with
  | nil =>
    intro input2 s h
    cases input2 with
    | nil => rfl
    | cons b rest2 => simp at h
  | cons a rest ih =>
    intro input2 s h
    cases input2 with
    | nil => simp at h
    | cons b rest2 =>
      simp only [List.map_cons, List.cons.injEq] at h
      have hab : is_white_space a = is_white_space b := by
        rw [← is_white_space_toupper a, ← is_white_space_toupper b, h.1]
      by_cases hsp : is_white_space a = true
      · rw [session_loop_cons_space w s a rest hsp,
          session_loop_cons_space w s b rest2 (hab ▸ hsp)]
        exact ih rest2 s h.2
      have hws : is_white_space a = false := by simpa using hsp
      by_cases hc : s.incorrect_guess_counter < maximum_incorrect_attempts
      · rw [session_loop_cons w s a rest hc hws, session_loop_cons w s b rest2 hc (hab ▸ hws),
          loop_body_toupper w s a b h.1, ih rest2 _ h.2]
      · rw [session_loop_of_exhausted w s _ hc, session_loop_of_exhausted w s _ hc]

/-- Only uppercase letters are ever stored in the guess lists. -/
theorem loop_body_stores_upper (w : List Char) (s : Session) (a : Char)
    (h : ∀ c, c ∈ s.correctly_guessed_letters ∨ c ∈ s.incorrectly_guessed_letters →
      ('A' ≤ c ∧ c ≤ 'Z')) :
    ∀ c, c ∈ (loop_body w s a).session.correctly_guessed_letters ∨
        c ∈ (loop_body w s a).session.incorrectly_guessed_letters →
      ('A' ≤ c ∧ c ≤ 'Z') := by
  intro c hc
  rcases loop_body_cases w s a with hb | hb | hb | hb
  · rw [hb.2] at hc; exact h c hc
  · rw [hb.2.2] at hc; exact h c hc
  · rw [hb.2.2.2.2] at hc
    simp only [List.mem_append, List.mem_singleton] at hc
    rcases hc with (hc | hc) | hc
    · exact h c (Or.inl hc)
    · rw [hc]; exact (validate_toupper_iff a).1 hb.1
    · exact h c (Or.inr hc)
  · rw [hb.2.2.2.2] at hc
    simp only [List.mem_append, List.mem_singleton] at hc
    rcases hc with hc | hc | hc
    · exact h c (Or.inl hc)
    · exact h c (Or.inr hc)
    · rw [hc]; exact (validate_toupper_iff a).1 hb.1

theorem run_session_stores_upper (w input : List Char) :
    ∀ c, c ∈ (run_session w input).session.correctly_guessed_letters ∨
        c ∈ (run_session w input).session.incorrectly_guessed_letters →
      ('A' ≤ c ∧ c ≤ 'Z') :=
  session_loop_preserves w
    (fun t => ∀ c, c ∈ t.correctly_guessed_letters ∨ c ∈ t.incorrectly_guessed_letters →
      ('A' ≤ c ∧ c ≤ 'Z'))
    (fun t a ht _ => loop_body_stores_upper w t a ht)
    input Session.initial (by intro c hc; simp [Session.initial] at hc)

/-- C11: the loop body uppercases its input before anything else, so two inputs that
agree after `toupper` (one got from the other by changing the case of letters) give the
same result, and the same result after every number of characters read: same lists,
same counters, same attempt count, same outcome. A lowercase letter may in particular be
replaced by its uppercase form anywhere in the input. After `toupper` the validation
accepts exactly `'A'..'Z'`, and the guess lists only ever hold uppercase letters. -/
theorem case_normalisation (w input input2 : List Char) :
    (input.map toupper = input2.map toupper →
      run_session w input = run_session w input2 ∧
      ∀ n, run_session w (input.take n) = run_session w (input2.take n)) ∧
    run_session w (input.map toupper) = run_session w input ∧
    (∀ (c : Char), ('a' ≤ c ∧ c ≤ 'z') →
      ('A' ≤ toupper c ∧ toupper c ≤ 'Z' ∧ (toupper c).toNat + 32 = c.toNat) ∧
      run_session w (input ++ c :: input2) = run_session w (input ++ toupper c :: input2)) ∧
    (∀ c, validate_character_input (toupper c) = true ↔ ('A' ≤ toupper c ∧ toupper c ≤ 'Z')) ∧
    (∀ c ∈ (run_session w input).session.correctly_guessed_letters, 'A' ≤ c ∧ c ≤ 'Z') ∧
    (∀ c ∈ (run_session w input).session.incorrectly_guessed_letters, 'A' ≤ c ∧ c ≤ 'Z') := by
  refine ⟨?_, ?_, ?_, validate_toupper_iff, ?_, ?_⟩
  · intro h
    refine ⟨session_loop_toupper w _ _ _ h, fun n => session_loop_toupper w _ _ _ ?_⟩
    rw [List.map_take, List.map_take, h]
  · apply session_loop_toupper
    rw [List.map_map]
    apply List.map_congr_left
    intro c _
    exact toupper_idem c
  · intro c hc
    refine ⟨toupper_of_lower c hc, session_loop_toupper w _ _ _ ?_⟩
    simp [toupper_idem]
  · intro c hc
    exact run_session_stores_upper w input c (Or.inl hc)
  · intro c hc
    exact run_session_stores_upper w input c (Or.inr hc)

/-! ## The run of `main` -/

theorem game_session_loop_succ (db : List (List Char)) (n i : Nat) (stats : RunStatistics)
    (input : List Char) :
    game_session_loop db (n + 1) i stats input =
      match select_target_word db i with
      | none => .Fault
      | some w =>
        match int_counter (session_loop w Session.initial input).session.session_attempt_counter with
        | none => .Overflow
        | some session_attempts =>
          if (session_loop w Session.initial input).exit = .InputExhausted then .AwaitingInput
          else
            match record_session stats (session_loop w Session.initial input).counted_as_success
                session_attempts with
            | none => .Overflow
            | some stats_after =>
              game_session_loop db n (i + 1) stats_after
                (session_loop_unread w Session.initial input) := by
  rw [game_session_loop]

theorem compute_success_rate_eq (total succ : Int) :
    compute_success_rate total succ =
      some (if total > 0 then (succ : ℚ) / (total : ℚ) * 100 else 0) := by
  unfold compute_success_rate double_div
  by_cases ht : total > 0
  · have hne : (total : ℚ) ≠ 0 := by
      have : (0 : ℚ) < (total : ℚ) := by exact_mod_cast ht
      exact ne_of_gt this
    simp [ht, hne]
  · simp [ht]

/-- The success rate of counters with `0 ≤ succ ≤ total` lies between 0 and 100. -/
theorem success_rate_bounds (total succ : Int) (h0 : 0 ≤ succ) (hle : succ ≤ total) :
    0 ≤ (if total > 0 then (succ : ℚ) / (total : ℚ) * 100 else 0) ∧
    (if total > 0 then (succ : ℚ) / (total : ℚ) * 100 else 0) ≤ 100 := by
  by_cases ht : total > 0
  · have hq : (0 : ℚ) < (total : ℚ) := by exact_mod_cast ht
    have h0q : (0 : ℚ) ≤ (succ : ℚ) := by exact_mod_cast h0
    have hleq : (succ : ℚ) ≤ (total : ℚ) := by exact_mod_cast hle
    have h1 : 0 ≤ (succ : ℚ) / (total : ℚ) := div_nonneg h0q (le_of_lt hq)
    have h2 : (succ : ℚ) / (total : ℚ) ≤ 1 := (div_le_one hq).2 hleq
    simp only [ht, if_true]
    constructor <;> nlinarith
  · simp [ht]

/-- The summary in terms of the success rate. -/
theorem display_statistical_summary_eq (total succ avg : Int) :
    display_statistical_summary total succ avg =
      some
        { total_games := total
          successful_completions := succ
          success_rate := if total > 0 then (succ : ℚ) / (total : ℚ) * 100 else 0
          average_attempts := avg
          classification :=
            classify_performance (if total > 0 then (succ : ℚ) / (total : ℚ) * 100 else 0)
          filled_segments :=
            double_to_int ((if total > 0 then (succ : ℚ) / (total : ℚ) * 100 else 0)
              / 100 * 20)
          progress_bar :=
            (List.range 20).map (fun (i : Nat) => decide ((i : Int) <
              double_to_int ((if total > 0 then (succ : ℚ) / (total : ℚ) * 100 else 0)
                / 100 * 20))) } := by
  unfold display_statistical_summary
  rw [compute_success_rate_eq]
  simp

/-- C14: with no session played the counters are all 0. The guard `total > 0` keeps both
the integer division of `average_attempts` and the division of the success rate from
being evaluated (each of them is undefined for the divisor 0). The results are an average
of 0, a success rate of 0, the class NEEDS IMPROVEMENT and no filled segment among the
20 of the progress bar. -/
theorem zero_sessions (db : List (List Char)) (input : List Char) :
    main_run db 0 input = .Finished RunStatistics.initial ∧
    RunStatistics.initial = ⟨0, 0, 0⟩ ∧
    int_div 0 0 = none ∧
    double_div 0 0 = none ∧
    average_attempts RunStatistics.initial = some 0 ∧
    compute_success_rate 0 0 = some 0 ∧
    display_statistical_summary 0 0 0 =
      some
        { total_games := 0
          successful_completions := 0
          success_rate := 0
          average_attempts := 0
          classification := .NeedsImprovement
          filled_segments := 0
          progress_bar := List.replicate 20 false } ∧
    main_program db 0 input = display_statistical_summary 0 0 0 := by
  have hbar : (List.range 20).map (fun (i : Nat) => decide ((i : Int) < 0))
      = List.replicate 20 false := by decide
  refine ⟨rfl, rfl, rfl, ?_, rfl, ?_, ?_, ?_⟩
  · simp [double_div]
  · simp [compute_success_rate]
  · rw [display_statistical_summary_eq]
    norm_num [classify_performance, double_to_int, hbar]
  · simp [main_program, main_run, game_session_loop, average_attempts,
      RunStatistics.initial]

/-- The class of a success rate, tier by tier. -/
theorem classify_performance_iff (r : ℚ) :
    (classify_performance r = .Excellent ↔ r ≥ 80) ∧
    (classify_performance r = .Good ↔ (60 ≤ r ∧ r < 80)) ∧
    (classify_performance r = .Average ↔ (40 ≤ r ∧ r < 60)) ∧
    (classify_performance r = .NeedsImprovement ↔ r < 40) := by
  unfold classify_performance
  by_cases h80 : r ≥ 80
  · rw [if_pos h80]
    refine ⟨by simp [h80], ?_, ?_, ?_⟩ <;> constructor <;> intro h
    · exact Classification.noConfusion h
    · linarith [h.2]
    · exact Classification.noConfusion h
    · linarith [h.2]
    · exact Classification.noConfusion h
    · linarith
  · rw [if_neg h80]
    by_cases h60 : r ≥ 60
    · rw [if_pos h60]
      refine ⟨?_, ?_, ?_, ?_⟩ <;> constructor <;> intro h
      · exact Classification.noConfusion h
      · exact absurd h h80
      · exact ⟨h60, lt_of_not_ge h80⟩
      · rfl
      · exact Classification.noConfusion h
      · linarith [h.2]
      · exact Classification.noConfusion h
      · linarith
    · rw [if_neg h60]
      by_cases h40 : r ≥ 40
      · rw [if_pos h40]
        refine ⟨?_, ?_, ?_, ?_⟩ <;> constructor <;> intro h
        · exact Classification.noConfusion h
        · exact absurd h h80
        · exact Classification.noConfusion h
        · exact absurd h.1 h60
        · exact ⟨h40, lt_of_not_ge h60⟩
        · rfl
        · exact Classification.noConfusion h
        · linarith
      · rw [if_neg h40]
        refine ⟨?_, ?_, ?_, ?_⟩ <;> constructor <;> intro h
        · exact Classification.noConfusion h
        · exact absurd h h80
        · exact Classification.noConfusion h
        · exact absurd h.1 h60
        · exact Classification.noConfusion h
        · exact absurd h.1 h40
        · exact lt_of_not_ge h40
        · rfl

/-- C15: for `total_games > 0` and `0 ≤ successful_completions ≤ total_games` the summary
is computed from the success rate `successful_completions / total_games × 100`, taken as
an exact rational and lying in [0, 100], and its class is Excellent exactly from 80 on,
Good exactly from 60 up to below 80, Average exactly from 40 up to below 60 and
NeedsImprovement exactly below 40. -/
theorem classification_tiers (total succ avg : Int)
    (hpos : 0 < total) (h0 : 0 ≤ succ) (hle : succ ≤ total) :
    ∃ summary, display_statistical_summary total succ avg = some summary ∧
      summary.success_rate = (succ : ℚ) / (total : ℚ) * 100 ∧
      (0 ≤ summary.success_rate ∧ summary.success_rate ≤ 100) ∧
      (summary.classification = .Excellent ↔ summary.success_rate ≥ 80) ∧
      (summary.classification = .Good ↔
        (60 ≤ summary.success_rate ∧ summary.success_rate < 80)) ∧
      (summary.classification = .Average ↔
        (40 ≤ summary.success_rate ∧ summary.success_rate < 60)) ∧
      (summary.classification = .NeedsImprovement ↔ summary.success_rate < 40) := by
  refine ⟨_, display_statistical_summary_eq total succ avg, ?_, ?_, ?_⟩
  · simp [hpos]
  · exact success_rate_bounds total succ h0 hle
  · have hgt : total > 0 := hpos
    simp only [hgt, if_true]
    exact classify_performance_iff _

/-- Four wins in five sessions are a success rate of exactly 80, which is Excellent; three
in five are exactly 60, Good; two in five are exactly 40, Average. -/
theorem classification_tiers_witness :
    ((display_statistical_summary 5 4 0).map (fun s => s.classification) = some .Excellent ∧
      (display_statistical_summary 5 4 0).map (fun s => s.success_rate) = some 80) ∧
    (display_statistical_summary 5 3 0).map (fun s => s.classification) = some .Good ∧
    (display_statistical_summary 5 2 0).map (fun s => s.classification) = some .Average :=
  ⟨(classification_tiers 5 4 0 (by decide) (by decide) (by decide)).elim
    (fun summary h => by
      have hr : summary.success_rate = 80 := by rw [h.2.1]; norm_num
      rw [h.1]
      exact ⟨congrArg some (h.2.2.2.1.2 (by rw [hr])), congrArg some hr⟩),
   (classification_tiers 5 3 0 (by decide) (by decide) (by decide)).elim
    (fun summary h => by
      have hr : summary.success_rate = 60 := by rw [h.2.1]; norm_num
      rw [h.1]
      exact congrArg some (h.2.2.2.2.1.2 (by rw [hr]; norm_num))),
   (classification_tiers 5 2 0 (by decide) (by decide) (by decide)).elim
    (fun summary h => by
      have hr : summary.success_rate = 40 := by rw [h.2.1]; norm_num
      rw [h.1]
      exact congrArg some (h.2.2.2.2.2.1.2 (by rw [hr]; norm_num)))⟩

/-- C16, as stated, fails: with an empty word list the selection of the first target word,
`word_database[0 % 0]`, is a modulo by zero, and the run of the three sessions ends there
without statistics, whatever the input. -/
theorem empty_word_list_faults :
    size_mod 0 ([] : List (List Char)).length = none ∧
    select_target_word [] 0 = none ∧
    main_run [] maximum_game_sessions [] = .Fault ∧
    main_run [] maximum_game_sessions "ABCDEFGHIJKLMNOPQRSTUVWXYZ".toList = .Fault ∧
    main_program [] maximum_game_sessions "ABCDEFGHIJKLMNOPQRSTUVWXYZ".toList = none := by
  decide

/-- C16, amended: the selection of the target word is free of a modulo by zero and of an
index outside the word list exactly when the word list is not empty, as the list of the
source is. With an empty word list and at least one session to play the run ends at the
selection of the first target word and no report is made; only with no session to play
(where no word is selected) are the statistics all zero. -/
theorem word_selection_defined_iff (db : List (List Char)) (i : Nat) :
    ((select_target_word db i).isSome = true ↔ db ≠ []) ∧
    (db ≠ [] → ∃ (h : i % db.length < db.length),
      select_target_word db i = some (db[i % db.length])) ∧
    word_database ≠ [] ∧
    (∀ (n : Nat) (input : List Char),
      main_run [] (n + 1) input = .Fault ∧ main_program [] (n + 1) input = none) ∧
    (∀ input : List Char, main_run [] 0 input = .Finished ⟨0, 0, 0⟩) := by
  have hsel : db ≠ [] → ∃ (h : i % db.length < db.length),
      select_target_word db i = some (db[i % db.length]) := by
    intro hne
    have hlen : 0 < db.length := List.length_pos.2 hne
    have hlt : i % db.length < db.length := Nat.mod_lt _ hlen
    refine ⟨hlt, ?_⟩
    unfold select_target_word size_mod
    rw [if_neg (Nat.pos_iff_ne_zero.1 hlen)]
    simp [List.getElem?_eq_getElem hlt]
  refine ⟨?_, hsel, by decide, ?_, fun _ => rfl⟩
  · constructor
    · intro h hnil
      rw [hnil] at h
      simp [select_target_word, size_mod] at h
    · intro hne
      obtain ⟨_, h⟩ := hsel hne
      rw [h]; rfl
  · intro n input
    have h : main_run [] (n + 1) input = .Fault := by
      unfold main_run
      rw [game_session_loop_succ]
      rfl
    exact ⟨h, by unfold main_program; rw [h]⟩

/-- The selection on the word list of the source, for session 10. -/
theorem word_selection_defined_iff_witness :
    ∃ (h : 10 % word_database.length < word_database.length),
      select_target_word word_database 10 = some (word_database[10 % word_database.length]) :=
  (word_selection_defined_iff word_database 10).2.1 (by decide)

/-- C17: for every session index `i` the target word is `word_database[i mod 8]`: the
index is in bounds, sessions `i` and `i + 8` get the same word, sessions 0, 1 and 2 get
PROGRAMMING, ALGORITHM and FUNCTION, and the selected word is not empty and made of the
letters `'A'..'Z'` only. -/
theorem word_selection (i : Nat) :
    word_database.length = 8 ∧
    i % 8 < word_database.length ∧
    select_target_word word_database i = word_database[i % 8]? ∧
    (∃ w, select_target_word word_database i = some w ∧ w ∈ word_database ∧
      w ≠ [] ∧ ∀ c ∈ w, 'A' ≤ c ∧ c ≤ 'Z') ∧
    select_target_word word_database (i + 8) = select_target_word word_database i ∧
    select_target_word word_database 0 = some "PROGRAMMING".toList ∧
    select_target_word word_database 1 = some "ALGORITHM".toList ∧
    select_target_word word_database 2 = some "FUNCTION".toList := by
  have hlen : word_database.length = 8 := rfl
  have hlt : i % 8 < word_database.length := by rw [hlen]; exact Nat.mod_lt _ (by decide)
  have hsel : ∀ j, select_target_word word_database j = word_database[j % 8]? := by
    intro j
    unfold select_target_word size_mod
    rw [hlen]
    simp
  have hall : ∀ w ∈ word_database, w ≠ [] ∧ ∀ c ∈ w, 'A' ≤ c ∧ c ≤ 'Z' := by decide
  refine ⟨hlen, hlt, hsel i, ?_, ?_, by decide, by decide, by decide⟩
  · refine ⟨word_database[i % 8], ?_, List.getElem_mem _, ?_⟩
    · rw [hsel i, List.getElem?_eq_getElem hlt]
    · exact hall _ (List.getElem_mem _)
  · rw [hsel, hsel, Nat.add_mod_right]

/-! ## The word is not complete while the loop runs -/

/-- A pass through the loop body that starts with an incomplete word and does not take
the `break` leaves the word incomplete. -/
theorem loop_body_not_completed (w : List Char) (s : Session) (a : Char)
    (hev : evaluate_game_completion_status w s.correctly_guessed_letters = false)
    (hb : (loop_body w s a).completed = false) :
    evaluate_game_completion_status w (loop_body w s a).session.correctly_guessed_letters
      = false := by
  rcases loop_body_cases w s a with h | h | h | h
  · rw [h.2]; exact hev
  · rw [h.2.2]; exact hev
  · rw [h.2.2.2.2] at hb ⊢; exact hb
  · rw [h.2.2.2.2]; exact hev

/-- A pass through the loop body that starts with an incomplete word and takes the
`break` has not touched the incorrect counter. -/
theorem loop_body_completed_counter (w : List Char) (s : Session) (a : Char)
    (hev : evaluate_game_completion_status w s.correctly_guessed_letters = false)
    (hb : (loop_body w s a).completed = true) :
    (loop_body w s a).session.incorrect_guess_counter = s.incorrect_guess_counter := by
  rcases loop_body_cases w s a with h | h | h | h
  · rw [h.2]
  · rw [h.2.2]
  · rw [h.2.2.2.2]
  · rw [h.2.2.2.2] at hb
    simp only at hb
    rw [hev] at hb
    exact Bool.noConfusion hb

/-- From a state with an incomplete word: the word is complete when the loop stops only
if it stops through the `break`, and then the incorrect counter is below the maximum. -/
theorem session_loop_exit_word (w : List Char) :
    ∀ (input : List Char) (s : Session),
      evaluate_game_completion_status w s.correctly_guessed_letters = false →
      ((session_loop w s input).exit ≠ .WordCompleted →
        evaluate_game_completion_status w
          (session_loop w s input).session.correctly_guessed_letters = false) ∧
      ((session_loop w s input).exit = .WordCompleted →
        (session_loop w s input).session.incorrect_guess_counter
          < maximum_incorrect_attempts) := by
  intro input
  induction input with
  | nil =>
    intro s hev
    by_cases hc : s.incorrect_guess_counter < maximum_incorrect_attempts
    · rw [session_loop_nil w s hc]; simp [hev]
    · rw [session_loop_of_exhausted w s [] hc]; simp [hev]
  | cons a rest ih =>
    intro s hev
    by_cases hsp : is_white_space a = true
    · rw [session_loop_cons_space w s a rest hsp]; exact ih s hev
    have hws : is_white_space a = false := by simpa using hsp
    by_cases hc : s.incorrect_guess_counter < maximum_incorrect_attempts
    · rw [session_loop_cons w s a rest hc hws]
      by_cases hb : (loop_body w s a).completed = true
      · simp only [hb, if_true]
        refine ⟨fun h => absurd rfl h, fun _ => ?_⟩
        rw [loop_body_completed_counter w s a hev hb]
        exact hc
      · simp only [hb, if_false]
        exact ih _ (loop_body_not_completed w s a hev (by simpa using hb))
    · rw [session_loop_of_exhausted w s _ hc]; simp [hev]

theorem evaluate_initial_of_nonempty (w : List Char) (hne : w ≠ []) :
    evaluate_game_completion_status w Session.initial.correctly_guessed_letters = false := by
  cases w with
  | nil => exact absurd rfl hne
  | cons x xs => simp [evaluate_game_completion_status, scan_for_character, Session.initial]

/-- C19: for a non-empty target word, a session whose loop has been left took exactly one
of two ways. Through the `break`: counted as a success, the word complete, the incorrect
counter below 6 and the failure branch not taken. Through the loop condition: the
incorrect counter at 6, the word not complete, the failure branch taken and no success
counted. Never both. While the loop waits for input, and so at the head of every
iteration, the word is not complete. -/
theorem won_lost_exclusive (w input : List Char) (hne : w ≠ []) :
    ((run_session w input).exit = .WordCompleted →
      (run_session w input).counted_as_success = true ∧
      (run_session w input).failure_branch_taken = false ∧
      evaluate_game_completion_status w
        (run_session w input).session.correctly_guessed_letters = true ∧
      (run_session w input).session.incorrect_guess_counter < 6) ∧
    ((run_session w input).exit = .AttemptsExhausted →
      (run_session w input).counted_as_success = false ∧
      (run_session w input).failure_branch_taken = true ∧
      evaluate_game_completion_status w
        (run_session w input).session.correctly_guessed_letters = false ∧
      (run_session w input).session.incorrect_guess_counter = 6) ∧
    ((run_session w input).exit = .InputExhausted →
      (run_session w input).counted_as_success = false ∧
      (run_session w input).failure_branch_taken = false ∧
      evaluate_game_completion_status w
        (run_session w input).session.correctly_guessed_letters = false ∧
      (run_session w input).session.incorrect_guess_counter < 6) ∧
    ¬ ((run_session w input).counted_as_success = true ∧
      (run_session w input).failure_branch_taken = true) ∧
    ((run_session w input).exit ≠ .InputExhausted →
      ((run_session w input).counted_as_success = true ∧
        (run_session w input).failure_branch_taken = false) ∨
      ((run_session w input).counted_as_success = false ∧
        (run_session w input).failure_branch_taken = true)) := by
  have hword := session_loop_exit_word w input Session.initial
    (evaluate_initial_of_nonempty w hne)
  have hcount := session_loop_exit_counter w input Session.initial
  have hle := (run_session_counter w input).2
  have hcompl := session_loop_completed w input Session.initial
  unfold run_session maximum_incorrect_attempts at *
  have hwon : (session_loop w Session.initial input).exit = .WordCompleted →
      (session_loop w Session.initial input).counted_as_success = true ∧
      (session_loop w Session.initial input).failure_branch_taken = false ∧
      evaluate_game_completion_status w
        (session_loop w Session.initial input).session.correctly_guessed_letters = true ∧
      (session_loop w Session.initial input).session.incorrect_guess_counter < 6 := by
    intro he
    have hlt := hword.2 he
    refine ⟨by simp [LoopResult.counted_as_success, he], ?_, hcompl he, hlt⟩
    simp only [LoopResult.failure_branch_taken, maximum_incorrect_attempts, Bool.and_eq_false_iff,
      decide_eq_false_iff_not]
    right; omega
  have hlost : (session_loop w Session.initial input).exit = .AttemptsExhausted →
      (session_loop w Session.initial input).counted_as_success = false ∧
      (session_loop w Session.initial input).failure_branch_taken = true ∧
      evaluate_game_completion_status w
        (session_loop w Session.initial input).session.correctly_guessed_letters = false ∧
      (session_loop w Session.initial input).session.incorrect_guess_counter = 6 := by
    intro he
    have hge := hcount.1 he
    have hsix : (session_loop w Session.initial input).session.incorrect_guess_counter = 6 := by
      omega
    refine ⟨by simp [LoopResult.counted_as_success, he], ?_, hword.1 (by simp [he]), hsix⟩
    simp [LoopResult.failure_branch_taken, maximum_incorrect_attempts, he, hsix]
  refine ⟨hwon, hlost, ?_, ?_, ?_⟩
  · intro he
    refine ⟨by simp [LoopResult.counted_as_success, he], ?_, hword.1 (by simp [he]),
      hcount.2 he⟩
    simp [LoopResult.failure_branch_taken, he]
  · rintro ⟨h1, h2⟩
    have he : (session_loop w Session.initial input).exit = .WordCompleted := by
      simpa [LoopResult.counted_as_success] using h1
    rw [(hwon he).2.1] at h2
    exact Bool.noConfusion h2
  · intro hne2
    cases he : (session_loop w Session.initial input).exit with
    | InputExhausted => exact absurd he hne2
    | WordCompleted => exact Or.inl ⟨(hwon he).1, (hwon he).2.1⟩
    | AttemptsExhausted => exact Or.inr ⟨(hlost he).1, (hlost he).2.1⟩

/-- The two ways out on the word CAT: the guesses C, A, T win without the failure branch,
and the guesses of the source's example X, Y, Z, Q, W, V lose without a success. -/
theorem won_lost_exclusive_witness :
    ((run_session "CAT".toList "CAT".toList).counted_as_success = true ∧
      (run_session "CAT".toList "CAT".toList).failure_branch_taken = false) ∧
    ((run_session "CAT".toList "XYZQWV".toList).counted_as_success = false ∧
      (run_session "CAT".toList "XYZQWV".toList).failure_branch_taken = true) :=
  ⟨by
    have h := (won_lost_exclusive "CAT".toList "CAT".toList (by decide)).1 (by decide)
    exact ⟨h.1, h.2.1⟩,
   by decide⟩

/-! ## The exact condition for winning -/

theorem card_toFinset_le_of_subset (l m : List Char) (h : ∀ x ∈ l, x ∈ m) :
    l.toFinset.card ≤ m.toFinset.card := by
  apply Finset.card_le_card
  intro x hx
  simp only [List.mem_toFinset] at hx ⊢
  exact h x hx

/-- Winning, the other way round: when the loop is left through the `break`, the input
read up to there reveals the rest of the word and, together with the incorrect list,
holds fewer than the maximum of distinct wrong letters. -/
theorem session_loop_won_only_if (w : List Char) :
    ∀ (input : List Char) (s : Session),
      s.incorrect_guess_counter = s.incorrectly_guessed_letters.length →
      s.incorrectly_guessed_letters.Nodup →
      (∀ c ∈ s.incorrectly_guessed_letters, c ∉ w) →
      (∀ c ∈ s.correctly_guessed_letters, c ∈ w) →
      evaluate_game_completion_status w s.correctly_guessed_letters = false →
      (session_loop w s input).exit = .WordCompleted →
      ∃ p, p <+: input ∧
        (∀ c ∈ w, c ∈ s.correctly_guessed_letters ∨ c ∈ normalised_guesses p) ∧
        (s.incorrectly_guessed_letters ++ wrong_letters w p).toFinset.card
          < maximum_incorrect_attempts := by
  intro input
  induction input with
  | nil =>
    intro s _ _ _ _ _ h
    by_cases hc : s.incorrect_guess_counter < maximum_incorrect_attempts
    · rw [session_loop_nil w s hc] at h; simp at h
    · rw [session_loop_of_exhausted w s [] hc] at h; simp at h
  | cons a rest ih =>
    intro s hlen hnd hinc hcor hev h
    by_cases hc : s.incorrect_guess_counter < maximum_incorrect_attempts
    swap
    · rw [session_loop_of_exhausted w s _ hc] at h; simp at h
    by_cases hsp : is_white_space a = true
    · rw [session_loop_cons_space w s a rest hsp] at h
      have hnv := (white_space_not_letter a hsp).1
      obtain ⟨p, hp, hcov, hcard⟩ := ih s hlen hnd hinc hcor hev h
      refine ⟨a :: p, (List.prefix_cons_inj a).2 hp, ?_, ?_⟩
      · intro c hcw
        rcases hcov c hcw with h1 | h1
        · exact Or.inl h1
        · exact Or.inr ((mem_normalised_guesses_cons c a p).2 (Or.inr h1))
      · refine lt_of_le_of_lt (card_toFinset_le_of_subset _ _ ?_) hcard
        intro x hx
        simp only [List.mem_append] at hx ⊢
        rcases hx with hx | hx
        · exact Or.inl hx
        · rcases (mem_wrong_letters_cons x a w p).1 hx with ⟨_, h2, _⟩ | h2
          · rw [hnv] at h2; exact Bool.noConfusion h2
          · exact Or.inr h2
    have hws : is_white_space a = false := by simpa using hsp
    rw [session_loop_cons w s a rest hc hws] at h
    rcases loop_body_cases w s a with hb | hb | hb | hb
    · rw [hb.2] at h
      simp only [Bool.false_eq_true, if_false] at h
      obtain ⟨p, hp, hcov, hcard⟩ :=
        ih { s with session_attempt_counter := s.session_attempt_counter + 1 }
          hlen hnd hinc hcor hev h
      refine ⟨a :: p, (List.prefix_cons_inj a).2 hp, ?_, ?_⟩
      · intro c hcw
        rcases hcov c hcw with h1 | h1
        · exact Or.inl h1
        · exact Or.inr ((mem_normalised_guesses_cons c a p).2 (Or.inr h1))
      · refine lt_of_le_of_lt (card_toFinset_le_of_subset _ _ ?_) hcard
        intro x hx
        simp only [List.mem_append] at hx ⊢
        rcases hx with hx | hx
        · exact Or.inl hx
        · rcases (mem_wrong_letters_cons x a w p).1 hx with ⟨_, h2, _⟩ | h2
          · rw [hb.1] at h2; exact Bool.noConfusion h2
          · exact Or.inr h2
    · rw [hb.2.2] at h
      simp only [Bool.false_eq_true, if_false] at h
      obtain ⟨p, hp, hcov, hcard⟩ :=
        ih { s with session_attempt_counter := s.session_attempt_counter + 1 }
          hlen hnd hinc hcor hev h
      refine ⟨a :: p, (List.prefix_cons_inj a).2 hp, ?_, ?_⟩
      · intro c hcw
        rcases hcov c hcw with h1 | h1
        · exact Or.inl h1
        · exact Or.inr ((mem_normalised_guesses_cons c a p).2 (Or.inr h1))
      · refine lt_of_le_of_lt (card_toFinset_le_of_subset _ _ ?_) hcard
        intro x hx
        simp only [List.mem_append] at hx ⊢
        rcases hx with hx | hx
        · exact Or.inl hx
        · rcases (mem_wrong_letters_cons x a w p).1 hx with ⟨h1, _, h3⟩ | h2
          · rcases hb.2.1 with h4 | h4
            · exact absurd (hcor _ h4) h3
            · exact Or.inl (h1 ▸ h4)
          · exact Or.inr h2
    · rw [hb.2.2.2.2] at h
      by_cases he : evaluate_game_completion_status w
          (s.correctly_guessed_letters ++ [toupper a]) = true
      · refine ⟨[a], ?_, ?_, ?_⟩
        · exact (List.prefix_cons_inj a).2 (List.nil_prefix)
        · intro c hcw
          have := (evaluate_game_completion_status_iff w _).1 he c hcw
          rcases List.mem_append.1 this with h1 | h1
          · exact Or.inl h1
          · exact Or.inr ((mem_normalised_guesses_cons c a []).2
              (Or.inl ⟨List.mem_singleton.1 h1, hb.1⟩))
        · have hsub : ∀ x ∈ s.incorrectly_guessed_letters ++ wrong_letters w [a],
              x ∈ s.incorrectly_guessed_letters := by
            intro x hx
            rcases List.mem_append.1 hx with hx | hx
            · exact hx
            · rcases (mem_wrong_letters_cons x a w []).1 hx with ⟨_, _, h3⟩ | h2
              · exact absurd hb.2.2.2.1 h3
              · simp [wrong_letters, normalised_guesses] at h2
          have := card_toFinset_le_of_subset _ _ hsub
          rw [List.toFinset_card_of_nodup hnd] at this
          omega
      · simp only [he, if_false] at h
        obtain ⟨p, hp, hcov, hcard⟩ :=
          ih { s with
              correctly_guessed_letters := s.correctly_guessed_letters ++ [toupper a]
              session_attempt_counter := s.session_attempt_counter + 1 }
            hlen hnd hinc
            (by
              intro c hcc
              rcases List.mem_append.1 hcc with hcc | hcc
              · exact hcor c hcc
              · rw [List.mem_singleton.1 hcc]; exact hb.2.2.2.1)
            (by simpa using he) h
        refine ⟨a :: p, (List.prefix_cons_inj a).2 hp, ?_, ?_⟩
        · intro c hcw
          rcases hcov c hcw with h1 | h1
          · rcases List.mem_append.1 h1 with h2 | h2
            · exact Or.inl h2
            · exact Or.inr ((mem_normalised_guesses_cons c a p).2
                (Or.inl ⟨List.mem_singleton.1 h2, hb.1⟩))
          · exact Or.inr ((mem_normalised_guesses_cons c a p).2 (Or.inr h1))
        · refine lt_of_le_of_lt (card_toFinset_le_of_subset _ _ ?_) hcard
          intro x hx
          simp only [List.mem_append] at hx ⊢
          rcases hx with hx | hx
          · exact Or.inl hx
          · rcases (mem_wrong_letters_cons x a w p).1 hx with ⟨_, _, h3⟩ | h2
            · exact absurd hb.2.2.2.1 h3
            · exact Or.inr h2
    · rw [hb.2.2.2.2] at h
      simp only [hev, Bool.false_eq_true, if_false] at h
      obtain ⟨p, hp, hcov, hcard⟩ :=
        ih { s with
            incorrectly_guessed_letters := s.incorrectly_guessed_letters ++ [toupper a]
            incorrect_guess_counter := s.incorrect_guess_counter + 1
            session_attempt_counter := s.session_attempt_counter + 1 }
          (by simp [hlen])
          (List.Nodup.append hnd (List.nodup_singleton _) (by simpa using hb.2.2.1))
          (by
            intro c hcc
            rcases List.mem_append.1 hcc with hcc | hcc
            · exact hinc c hcc
            · rw [List.mem_singleton.1 hcc]; exact hb.2.2.2.1)
          hcor hev h
      refine ⟨a :: p, (List.prefix_cons_inj a).2 hp, ?_, ?_⟩
      · intro c hcw
        rcases hcov c hcw with h1 | h1
        · exact Or.inl h1
        · exact Or.inr ((mem_normalised_guesses_cons c a p).2 (Or.inr h1))
      · refine lt_of_le_of_lt (card_toFinset_le_of_subset _ _ ?_) hcard
        intro x hx
        simp only [List.mem_append, List.mem_singleton] at hx ⊢
        rcases hx with hx | hx
        · exact Or.inl (Or.inl hx)
        · rcases (mem_wrong_letters_cons x a w p).1 hx with ⟨h1, _, _⟩ | h2
          · exact Or.inl (Or.inr h1)
          · exact Or.inr h2

/-- The loop body with another value of the attempt counter: everything but the attempt
counter comes out the same. -/
theorem loop_body_attempts (w : List Char) (s : Session) (n : Nat) (a : Char) :
    loop_body w { s with session_attempt_counter := n } a =
      { session := { (loop_body w s a).session with session_attempt_counter := n + 1 }
        signal := (loop_body w s a).signal
        completed := (loop_body w s a).completed } := by
  rcases loop_body_cases w s a with h | h | h | h
  · rcases loop_body_cases w { s with session_attempt_counter := n } a with
      h2 | h2 | h2 | h2
    · rw [h.2, h2.2]
    · rw [h.1] at h2; exact Bool.noConfusion h2.1
    · rw [h.1] at h2; exact Bool.noConfusion h2.1
    · rw [h.1] at h2; exact Bool.noConfusion h2.1
  · rcases loop_body_cases w { s with session_attempt_counter := n } a with
      h2 | h2 | h2 | h2
    · rw [h.1] at h2; exact Bool.noConfusion h2.1
    · rw [h.2.2, h2.2.2]
    · rcases h.2.1 with h3 | h3
      · exact absurd h3 h2.2.1
      · exact absurd h3 h2.2.2.1
    · rcases h.2.1 with h3 | h3
      · exact absurd h3 h2.2.1
      · exact absurd h3 h2.2.2.1
  · rcases loop_body_cases w { s with session_attempt_counter := n } a with
      h2 | h2 | h2 | h2
    · rw [h.1] at h2; exact Bool.noConfusion h2.1
    · rcases h2.2.1 with h3 | h3
      · exact absurd h3 h.2.1
      · exact absurd h3 h.2.2.1
    · rw [h.2.2.2.2, h2.2.2.2.2]
    · exact absurd h.2.2.2.1 h2.2.2.2.1
  · rcases loop_body_cases w { s with session_attempt_counter := n } a with
      h2 | h2 | h2 | h2
    · rw [h.1] at h2; exact Bool.noConfusion h2.1
    · rcases h2.2.1 with h3 | h3
      · exact absurd h3 h.2.1
      · exact absurd h3 h.2.2.1
    · exact absurd h2.2.2.2.1 h.2.2.2.1
    · rw [h.2.2.2.2, h2.2.2.2.2]

/-- The loop with another value of the attempt counter: the exit, the lists and the
incorrect counter come out the same. -/
theorem session_loop_attempts (w : List Char) :
    ∀ (input : List Char) (s : Session) (n : Nat),
      (session_loop w { s with session_attempt_counter := n } input).exit
        = (session_loop w s input).exit ∧
      (session_loop w { s with session_attempt_counter := n } input).session.correctly_guessed_letters
        = (session_loop w s input).session.correctly_guessed_letters ∧
      (session_loop w { s with session_attempt_counter := n } input).session.incorrectly_guessed_letters
        = (session_loop w s input).session.incorrectly_guessed_letters ∧
      (session_loop w { s with session_attempt_counter := n } input).session.incorrect_guess_counter
        = (session_loop w s input).session.incorrect_guess_counter := by
  intro input
  induction input with
  | nil =>
    intro s n
    by_cases hc : s.incorrect_guess_counter < maximum_incorrect_attempts
    · have hc2 : ({ s with session_attempt_counter := n } : Session).incorrect_guess_counter
          < maximum_incorrect_attempts := hc
      rw [session_loop_nil w s hc, session_loop_nil w _ hc2]
      exact ⟨rfl, rfl, rfl, rfl⟩
    · have hc2 : ¬ ({ s with session_attempt_counter := n } : Session).incorrect_guess_counter
          < maximum_incorrect_attempts := hc
      rw [session_loop_of_exhausted w s _ hc, session_loop_of_exhausted w _ _ hc2]
      exact ⟨rfl, rfl, rfl, rfl⟩
  | cons a rest ih =>
    intro s n
    by_cases hsp : is_white_space a = true
    · rw [session_loop_cons_space w s a rest hsp, session_loop_cons_space w _ a rest hsp]
      exact ih s n
    have hws : is_white_space a = false := by simpa using hsp
    by_cases hc : s.incorrect_guess_counter < maximum_incorrect_attempts
    · have hc2 : ({ s with session_attempt_counter := n } : Session).incorrect_guess_counter
          < maximum_incorrect_attempts := hc
      rw [session_loop_cons w s a rest hc hws, session_loop_cons w _ a rest hc2 hws,
        loop_body_attempts w s n a]
      by_cases hb : (loop_body w s a).completed = true
      · rw [if_pos hb, if_pos hb]
        exact ⟨rfl, rfl, rfl, rfl⟩
      · rw [if_neg hb, if_neg hb]
        exact ih (loop_body w s a).session (n + 1)
    · have hc2 : ¬ ({ s with session_attempt_counter := n } : Session).incorrect_guess_counter
          < maximum_incorrect_attempts := hc
      rw [session_loop_of_exhausted w s _ hc, session_loop_of_exhausted w _ _ hc2]
      exact ⟨rfl, rfl, rfl, rfl⟩

/-- A character that is skipped as white space or rejected, as no letter or as a
duplicate, changes neither the exit nor the lists nor the incorrect counter. -/
theorem session_loop_rejected (w : List Char) (s : Session) (x : Char) (rest : List Char)
    (hc : s.incorrect_guess_counter < maximum_incorrect_attempts)
    (hx : validate_character_input (toupper x) = false ∨
      toupper x ∈ s.correctly_guessed_letters ∨ toupper x ∈ s.incorrectly_guessed_letters) :
    (session_loop w s (x :: rest)).exit = (session_loop w s rest).exit ∧
    (session_loop w s (x :: rest)).session.correctly_guessed_letters
      = (session_loop w s rest).session.correctly_guessed_letters ∧
    (session_loop w s (x :: rest)).session.incorrectly_guessed_letters
      = (session_loop w s rest).session.incorrectly_guessed_letters ∧
    (session_loop w s (x :: rest)).session.incorrect_guess_counter
      = (session_loop w s rest).session.incorrect_guess_counter := by
  by_cases hsp : is_white_space x = true
  · rw [session_loop_cons_space w s x rest hsp]
    exact ⟨rfl, rfl, rfl, rfl⟩
  have hws : is_white_space x = false := by simpa using hsp
  have hstep : session_loop w s (x :: rest) =
      session_loop w { s with session_attempt_counter := s.session_attempt_counter + 1 }
        rest := by
    rw [session_loop_cons w s x rest hc hws]
    rcases loop_body_cases w s x with h | h | h | h
    · rw [h.2]; simp
    · rw [h.2.2]; simp
    · rcases hx with hx | hx | hx
      · rw [h.1] at hx; exact Bool.noConfusion hx
      · exact absurd hx h.2.1
      · exact absurd hx h.2.2.1
    · rcases hx with hx | hx | hx
      · rw [h.1] at hx; exact Bool.noConfusion hx
      · exact absurd hx h.2.1
      · exact absurd hx h.2.2.1
  rw [hstep]
  exact session_loop_attempts w rest s _

/-- Every letter the loop body is given is in one of the lists afterwards. -/
theorem loop_body_records (w : List Char) (s : Session) (a c : Char)
    (h : c ∈ s.correctly_guessed_letters ∨ c ∈ s.incorrectly_guessed_letters ∨
      (c = toupper a ∧ validate_character_input (toupper a) = true)) :
    c ∈ (loop_body w s a).session.correctly_guessed_letters ∨
      c ∈ (loop_body w s a).session.incorrectly_guessed_letters := by
  rcases loop_body_cases w s a with hb | hb | hb | hb
  · rw [hb.2]
    rcases h with h | h | h
    · exact Or.inl h
    · exact Or.inr h
    · rw [hb.1] at h; exact Bool.noConfusion h.2
  · rw [hb.2.2]
    rcases h with h | h | h
    · exact Or.inl h
    · exact Or.inr h
    · rw [h.1]; exact hb.2.1
  · rw [hb.2.2.2.2]
    simp only [List.mem_append, List.mem_singleton]
    rcases h with h | h | h
    · exact Or.inl (Or.inl h)
    · exact Or.inr h
    · exact Or.inl (Or.inr h.1)
  · rw [hb.2.2.2.2]
    simp only [List.mem_append, List.mem_singleton]
    rcases h with h | h | h
    · exact Or.inl h
    · exact Or.inr (Or.inl h)
    · exact Or.inr (Or.inr h.1)

/-- When the loop has read all of its input and waits for more, every letter of the
input is in one of the lists. -/
theorem session_loop_records (w : List Char) :
    ∀ (input : List Char) (s : Session),
      (session_loop w s input).exit = .InputExhausted →
      ∀ c, (c ∈ s.correctly_guessed_letters ∨ c ∈ s.incorrectly_guessed_letters ∨
          c ∈ normalised_guesses input) →
        c ∈ (session_loop w s input).session.correctly_guessed_letters ∨
          c ∈ (session_loop w s input).session.incorrectly_guessed_letters := by
  intro input
  induction input with
  | nil =>
    intro s he c hcs
    by_cases hc : s.incorrect_guess_counter < maximum_incorrect_attempts
    · rw [session_loop_nil w s hc]
      rcases hcs with h | h | h
      · exact Or.inl h
      · exact Or.inr h
      · simp [normalised_guesses] at h
    · rw [session_loop_of_exhausted w s [] hc] at he; simp at he
  | cons a rest ih =>
    intro s he c hcs
    by_cases hsp : is_white_space a = true
    · rw [session_loop_cons_space w s a rest hsp] at he ⊢
      apply ih s he c
      rcases hcs with h | h | h
      · exact Or.inl h
      · exact Or.inr (Or.inl h)
      · rcases (mem_normalised_guesses_cons c a rest).1 h with h1 | h1
        · have := (white_space_not_letter a hsp).1
          rw [h1.2] at this
          exact Bool.noConfusion this
        · exact Or.inr (Or.inr h1)
    have hws : is_white_space a = false := by simpa using hsp
    by_cases hc : s.incorrect_guess_counter < maximum_incorrect_attempts
    · rw [session_loop_cons w s a rest hc hws] at he ⊢
      by_cases hb : (loop_body w s a).completed = true
      · simp [hb] at he
      · simp only [hb, if_false] at he ⊢
        apply ih _ he c
        rcases hcs with h | h | h
        · rcases loop_body_records w s a c (Or.inl h) with h2 | h2
          · exact Or.inl h2
          · exact Or.inr (Or.inl h2)
        · rcases loop_body_records w s a c (Or.inr (Or.inl h)) with h2 | h2
          · exact Or.inl h2
          · exact Or.inr (Or.inl h2)
        · rcases (mem_normalised_guesses_cons c a rest).1 h with h1 | h1
          · rcases loop_body_records w s a c (Or.inr (Or.inr h1)) with h2 | h2
            · exact Or.inl h2
            · exact Or.inr (Or.inl h2)
          · exact Or.inr (Or.inr h1)
    · rw [session_loop_of_exhausted w s _ hc] at he; simp at he

/-- A rejected character anywhere in the input changes neither the exit nor the lists
nor the incorrect counter. -/
theorem run_session_rejected (w pre post : List Char) (x : Char)
    (hx : validate_character_input (toupper x) = false ∨
      toupper x ∈ normalised_guesses pre) :
    (run_session w (pre ++ x :: post)).exit = (run_session w (pre ++ post)).exit ∧
    (run_session w (pre ++ x :: post)).session.correctly_guessed_letters
      = (run_session w (pre ++ post)).session.correctly_guessed_letters ∧
    (run_session w (pre ++ x :: post)).session.incorrectly_guessed_letters
      = (run_session w (pre ++ post)).session.incorrectly_guessed_letters ∧
    (run_session w (pre ++ x :: post)).session.incorrect_guess_counter
      = (run_session w (pre ++ post)).session.incorrect_guess_counter := by
  unfold run_session
  rw [session_loop_append w (x :: post) pre, session_loop_append w post pre]
  by_cases he : (session_loop w Session.initial pre).exit = .InputExhausted
  · rw [if_pos he, if_pos he]
    have hc := (session_loop_exit_counter w pre Session.initial).2 he
    have hx2 : validate_character_input (toupper x) = false ∨
        toupper x ∈ (session_loop w Session.initial pre).session.correctly_guessed_letters ∨
        toupper x ∈ (session_loop w Session.initial pre).session.incorrectly_guessed_letters := by
      rcases hx with hx | hx
      · exact Or.inl hx
      · exact Or.inr (session_loop_records w pre Session.initial he _ (Or.inr (Or.inr hx)))
    exact session_loop_rejected w _ x post hc hx2
  · rw [if_neg he, if_neg he]
    exact ⟨rfl, rfl, rfl, rfl⟩

theorem mem_normalised_guesses (c : Char) (p : List Char) :
    c ∈ normalised_guesses p ↔ c ∈ p.map toupper ∧ validate_character_input c = true := by
  unfold normalised_guesses
  exact List.mem_filter

/-- The wrong letters of an input, counted on the uppercased input. -/
theorem wrong_letters_card (w p : List Char) :
    (wrong_letters w p).toFinset.card =
      ((p.map toupper).filter
        (fun c => decide ('A' ≤ c ∧ c ≤ 'Z') && !decide (c ∈ w))).toFinset.card := by
  congr 1
  ext x
  simp only [List.mem_toFinset, mem_wrong_letters, mem_normalised_guesses, List.mem_filter,
    Bool.and_eq_true, decide_eq_true_eq, Bool.not_eq_true', decide_eq_false_iff_not]
  constructor
  · rintro ⟨⟨h1, h2⟩, h3⟩
    obtain ⟨y, _, rfl⟩ := List.mem_map.1 h1
    exact ⟨h1, (validate_toupper_iff y).1 h2, h3⟩
  · rintro ⟨h1, h2, h3⟩
    exact ⟨⟨h1, (validate_character_input_iff x).2 (Or.inl h2)⟩, h3⟩

/-- C18: for a non-empty target word of uppercase letters the session is Won exactly when
the uppercased input has a prefix in which every character of the word occurs and in
which fewer than 6 distinct letters `'A'..'Z'` occur that are not in the word. A
character that is no letter, or one whose uppercase form has occurred before, can be put
anywhere into the input without changing the outcome. -/
theorem exact_win_condition (w input : List Char)
    (hne : w ≠ []) (hupper : ∀ c ∈ w, 'A' ≤ c ∧ c ≤ 'Z') :
    ((run_session w input).state = .Won ↔
      ∃ p, p <+: input.map toupper ∧ (∀ c ∈ w, c ∈ p) ∧
        (p.filter (fun c => decide ('A' ≤ c ∧ c ≤ 'Z') && !decide (c ∈ w))).toFinset.card
          < 6) ∧
    (∀ (pre post : List Char) (x : Char), input = pre ++ post →
      (¬ (('A' ≤ x ∧ x ≤ 'Z') ∨ ('a' ≤ x ∧ x ≤ 'z')) ∨ toupper x ∈ pre.map toupper) →
      (run_session w (pre ++ x :: post)).state = (run_session w input).state) := by
  have hev := evaluate_initial_of_nonempty w hne
  constructor
  · constructor
    · intro hwon
      have hexit : (run_session w input).exit = .WordCompleted := by
        cases he : (run_session w input).exit <;> simp [LoopResult.state, he] at hwon
        rfl
      obtain ⟨p0, hp0, hcov, hcard⟩ := session_loop_won_only_if w input Session.initial rfl
        List.nodup_nil (by intro c hc; simp [Session.initial] at hc)
        (by intro c hc; simp [Session.initial] at hc) hev hexit
      refine ⟨p0.map toupper, List.IsPrefix.map toupper hp0, ?_, ?_⟩
      · intro c hc
        rcases hcov c hc with h | h
        · simp [Session.initial] at h
        · exact ((mem_normalised_guesses c p0).1 h).1
      · rw [← wrong_letters_card]
        simpa [Session.initial, maximum_incorrect_attempts] using hcard
    · rintro ⟨p, hp, hcov, hcard⟩
      have hp2 : p = (input.take p.length).map toupper := by
        rw [List.map_take]
        exact List.prefix_iff_eq_take.1 hp
      have hsplit : input = input.take p.length ++ input.drop p.length :=
        (List.take_append_drop _ _).symm
      have hexit : (run_session w input).exit = .WordCompleted := by
        unfold run_session
        rw [hsplit]
        apply session_loop_won w _ (input.take p.length) Session.initial rfl List.nodup_nil
        · intro c hc; simp [Session.initial] at hc
        · exact hev
        · intro c hc
          right
          rw [mem_normalised_guesses, ← hp2]
          exact ⟨hcov c hc, (validate_character_input_iff c).2 (Or.inl (hupper c hc))⟩
        · rw [hp2, ← wrong_letters_card] at hcard
          simpa [Session.initial, maximum_incorrect_attempts] using hcard
      simp [LoopResult.state, hexit]
  · intro pre post x hin hx
    have hx2 : validate_character_input (toupper x) = false ∨
        toupper x ∈ normalised_guesses pre := by
      by_cases hv : validate_character_input (toupper x) = true
      · right
        rcases hx with hx | hx
        · exfalso
          apply hx
          have hup := (validate_toupper_iff x).1 hv
          by_cases hl : 'a' ≤ x ∧ x ≤ 'z'
          · exact Or.inr hl
          · rw [toupper_of_not_lower x hl] at hup
            exact Or.inl hup
        · exact (mem_normalised_guesses _ _).2 ⟨hx, hv⟩
      · left
        simpa using hv
    have h := (run_session_rejected w pre post x hx2).1
    rw [hin]
    simp only [LoopResult.state, h]

/-- The word CAT is won by `c`, `5`, `a`, `C`, `t`: uppercased, the whole input is a
prefix that holds C, A and T and no wrong letter. -/
theorem exact_win_condition_witness :
    (run_session "CAT".toList "c5aCt".toList).state = .Won ∧
    ((run_session "CAT".toList "c5aCt".toList).state = .Won ↔
      ∃ p, p <+: "c5aCt".toList.map toupper ∧ (∀ c ∈ "CAT".toList, c ∈ p) ∧
        (p.filter (fun c => decide ('A' ≤ c ∧ c ≤ 'Z')
          && !decide (c ∈ "CAT".toList))).toFinset.card < 6) :=
  ⟨by decide, (exact_win_condition "CAT".toList "c5aCt".toList (by decide) (by decide)).1⟩

/-! ## How many guesses a session accepts -/

theorem char_toNat_injective : Function.Injective Char.toNat := by
  intro a b h
  have := congrArg Char.ofNat h
  simpa using this

/-- A list of distinct uppercase letters has at most 26 entries. -/
theorem upper_nodup_length_le (l : List Char) (hnd : l.Nodup)
    (hup : ∀ c ∈ l, 'A' ≤ c ∧ c ≤ 'Z') : l.length ≤ 26 := by
  have hnd2 : (l.map Char.toNat).Nodup := hnd.map char_toNat_injective
  have hsub : (l.map Char.toNat).toFinset ⊆ Finset.Icc 65 90 := by
    intro n hn
    simp only [List.mem_toFinset, List.mem_map] at hn
    obtain ⟨c, hc, rfl⟩ := hn
    have h := hup c hc
    have h1 := h.1
    have h2 := h.2
    rw [char_le_iff] at h1 h2
    have e1 : ('A' : Char).toNat = 65 := by decide
    have e2 : ('Z' : Char).toNat = 90 := by decide
    simp only [Finset.mem_Icc]
    omega
  have hcard := Finset.card_le_card hsub
  rw [List.toFinset_card_of_nodup hnd2, List.length_map, Nat.card_Icc] at hcard
  exact hcard

/-- A duplicate-free list of characters of the word is no longer than the word has
distinct characters, and shorter when a character of the word is missing from it. -/
theorem correct_length_le (w g : List Char) (hnd : g.Nodup) (hsub : ∀ c ∈ g, c ∈ w) :
    g.length ≤ w.toFinset.card ∧
    (evaluate_game_completion_status w g = false → g.length < w.toFinset.card) := by
  rw [← List.toFinset_card_of_nodup hnd]
  refine ⟨card_toFinset_le_of_subset g w hsub, ?_⟩
  intro hev
  rw [evaluate_game_completion_status_eq_false_iff] at hev
  simp only [not_forall] at hev
  obtain ⟨c, hcw, hcg⟩ := hev
  apply Finset.card_lt_card
  rw [Finset.ssubset_iff_of_subset (fun x hx => by
    simp only [List.mem_toFinset] at hx ⊢; exact hsub x hx)]
  exact ⟨c, by simpa using hcw, by simpa using hcg⟩

/-- C20: for a non-empty target word of uppercase letters, when the loop stops the two
lists together hold at most as many letters as the word has distinct letters, plus 5,
and at most 26; the word itself has at most 26 distinct letters. An input with at least
that many distinct letters (distinct letters of the word plus 5) always brings the loop
to an end. -/
theorem accepted_guess_bound (w input : List Char)
    (hne : w ≠ []) (hupper : ∀ c ∈ w, 'A' ≤ c ∧ c ≤ 'Z') :
    (run_session w input).session.correctly_guessed_letters.length
        + (run_session w input).session.incorrectly_guessed_letters.length
      ≤ w.toFinset.card + 5 ∧
    (run_session w input).session.correctly_guessed_letters.length
        + (run_session w input).session.incorrectly_guessed_letters.length
      ≤ 26 ∧
    w.toFinset.card ≤ 26 ∧
    (w.toFinset.card + 5 ≤ (normalised_guesses input).toFinset.card →
      (run_session w input).exit ≠ .InputExhausted) := by
  have hev := evaluate_initial_of_nonempty w hne
  have hword := session_loop_exit_word w input Session.initial hev
  have hcount := session_loop_exit_counter w input Session.initial
  have hctr := run_session_counter w input
  have hinv := session_loop_preserves w
    (fun t => t.correctly_guessed_letters.Nodup ∧ t.incorrectly_guessed_letters.Nodup ∧
      (∀ c ∈ t.correctly_guessed_letters, c ∈ w) ∧
      (∀ c ∈ t.incorrectly_guessed_letters, c ∉ w))
    (fun t a ht _ => loop_body_guess_record w t a ht)
    input Session.initial
    ⟨List.nodup_nil, List.nodup_nil, by simp [Session.initial], by simp [Session.initial]⟩
  have hup := run_session_stores_upper w input
  unfold run_session maximum_incorrect_attempts at *
  obtain ⟨hnd1, hnd2, hcw, hiw⟩ := hinv
  have hcl := correct_length_le w _ hnd1 hcw
  have hsum : (session_loop w Session.initial input).session.correctly_guessed_letters.length
      + (session_loop w Session.initial input).session.incorrectly_guessed_letters.length
      ≤ w.toFinset.card + 5 := by
    by_cases he : (session_loop w Session.initial input).exit = .WordCompleted
    · have := hword.2 he
      omega
    · have := hcl.2 (hword.1 he)
      omega
  have hwcard : w.toFinset.card ≤ 26 := by
    rw [List.card_toFinset]
    exact upper_nodup_length_le _ (List.nodup_dedup w)
      (fun c hc => hupper c (List.mem_dedup.1 hc))
  refine ⟨hsum, ?_, hwcard, ?_⟩
  · rw [← List.length_append]
    apply upper_nodup_length_le
    · exact List.Nodup.append hnd1 hnd2 (fun c h1 h2 => hiw c h2 (hcw c h1))
    · intro c hc
      exact hup c (List.mem_append.1 hc)
  · intro hmany he
    have hrec := session_loop_records w input Session.initial he
    have hsub : ∀ c ∈ normalised_guesses input,
        c ∈ (session_loop w Session.initial input).session.correctly_guessed_letters
          ++ (session_loop w Session.initial input).session.incorrectly_guessed_letters := by
      intro c hc
      exact List.mem_append.2 (hrec c (Or.inr (Or.inr hc)))
    have hle := card_toFinset_le_of_subset _ _ hsub
    rw [List.toFinset_card_of_nodup
      (List.Nodup.append hnd1 hnd2 (fun c h1 h2 => hiw c h2 (hcw c h1))),
      List.length_append] at hle
    have h1 := hcl.2 (hword.1 (by simp [he]))
    have h2 := hcount.2 he
    omega

/-- The bound on the word DOG, whose three letters allow 8 accepted guesses: the
source's losing guesses X, Y, Z, Q, W, V with D and O before them fill it exactly. -/
theorem accepted_guess_bound_witness :
    (run_session "DOG".toList "DOXYZQWV".toList).session.correctly_guessed_letters.length
        + (run_session "DOG".toList "DOXYZQWV".toList).session.incorrectly_guessed_letters.length
      ≤ "DOG".toList.toFinset.card + 5 ∧
    (run_session "DOG".toList "DOXYZQWV".toList).session.correctly_guessed_letters.length
        + (run_session "DOG".toList "DOXYZQWV".toList).session.incorrectly_guessed_letters.length
      = 8 :=
  ⟨(accepted_guess_bound "DOG".toList "DOXYZQWV".toList (by decide) (by decide)).1,
    by decide⟩

end Hangman
